import Mathlib

/-!
Verification of the `fluentmap` evaluation pipeline of the flexmap
repository against its design specification.

The repository ships the pipeline as a single module (`fluentmap.py`,
listed in the build tooling) together with its test suite
(`tests/test_fluentmap.py`).  The module itself is not part of the
sources available here, so the pipeline is modelled from the
specification (its data model in §3, the component contracts in
§4.1-§4.4 and the interface in §6), and the model is checked against
the concrete input/output pairs recorded in the test suite.
-/

namespace Flexmap

/-- Modelled from the spec: runtime values flowing through the pipeline.
The missing `fluentmap.py` operates on untyped host-language values;
inputs may be scalars or composite values such as tuples, and the
batcher builds a sequence value out of the grouped rows (§3, §4.2).
`PyVal.base` is a scalar, `PyVal.seq` a tuple/list of values. -/
inductive PyVal (α : Type) where
  | base (a : α)
  | seq (vs : List (PyVal α))

/-- Modelled from the spec: a CallSpec is "a tuple of positional
arguments, a mapping of keyword arguments" for one invocation (§3).
(The sequence index of §3 is kept by position in the pipeline's lists
rather than stored in the record.) -/
structure CallSpec (α : Type) where
  args : List (PyVal α)
  kwargs : List (String × PyVal α)

/-- Modelled from the spec: one element of a single input sequence is
either a plain value, wrapped as the sole positional argument, or an
`Arguments(*args, **kwargs)` wrapper whose stored arguments are used
verbatim (§3, §4.1, §6). -/
inductive Row (α : Type) where
  | plain (v : PyVal α)
  | arguments (as : List (PyVal α)) (kw : List (String × PyVal α))

/-- Modelled from the spec: the `*input_sequences` of the public `map`
operation (§6) — one sequence whose elements may be `Arguments`
wrappers, or two or more sequences that are zipped positionally. -/
inductive Inputs (α : Type) where
  | single (rows : List (Row α))
  | multi (s1 s2 : List (PyVal α)) (rest : List (List (PyVal α)))

/-- Modelled from the spec: the CallSpec Adapter's treatment of one row
of a single input sequence (§4.1): a plain element becomes the sole
positional argument, an `Arguments` wrapper supplies its stored
positional and keyword arguments directly. -/
def specOfRow : Row α → CallSpec α
  | .plain v => ⟨[v], []⟩
  | .arguments as kw => ⟨as, kw⟩

/-- Pop the head of every sequence; `none` as soon as any sequence is
exhausted (the shortest-input stop of §4.1). -/
def zipHeads : List (List σ) → Option (List σ × List (List σ))
  | [] => some ([], [])
  | [] :: _ => none
  | (a :: as) :: rest =>
      match zipHeads rest with
      | none => none
      | some (hs, ts) => some (a :: hs, as :: ts)

/-- Positional zipping of several sequences, stopping as soon as any
one is exhausted (§4.1). -/
def zipAllGo (first : List σ) (rest : List (List σ)) : List (List σ) :=
  match first with
  | [] => []
  | a :: as =>
      match zipHeads rest with
      | none => []
      | some (hs, ts) => (a :: hs) :: zipAllGo as ts

/-- Modelled from the spec: the CallSpec Adapter (§4.1).  A single
input sequence is adapted row by row; multiple input sequences are
zipped positionally, each zipped row becoming the positional-argument
tuple of one CallSpec, and iteration stops at the shortest sequence. -/
def callSpecs : Inputs α → List (CallSpec α)
  | .single rows => rows.map specOfRow
  | .multi s1 s2 rest => (zipAllGo s1 (s2 :: rest)).map (fun as => ⟨as, []⟩)

/-- Modelled from the spec: a grouped row's "original argument
representation" inside a Batch (§4.2): the raw value when the CallSpec
has a single positional argument, otherwise the argument tuple
itself. -/
def argRep (c : CallSpec α) : PyVal α :=
  match c.args with
  | [v] => v
  | as => .seq as

/-- Modelled from the spec: a Batch is a CallSpec whose single
positional argument is the ordered list of the grouped rows' argument
representations (§3, §4.2). -/
def mkBatch (group : List (CallSpec α)) : CallSpec α :=
  ⟨[.seq (group.map argRep)], []⟩

/-- Chunking helper with explicit structural fuel (the fuel is always
instantiated with the length of the list). -/
def chunkGo (k : Nat) : Nat → List σ → List (List σ)
  | _, [] => []
  | 0, _ :: _ => []
  | fuel + 1, a :: l => (a :: l).take k :: chunkGo k fuel ((a :: l).drop k)

/-- Group a list into consecutive chunks of `k` elements, the last
chunk possibly shorter (§4.2). -/
def chunkList (k : Nat) (l : List σ) : List (List σ) :=
  chunkGo k l.length l

/-- Modelled from the spec: the Batcher (§4.2).  `batch_size ≤ 1`
passes CallSpecs through unchanged; `batch_size ≥ 2` groups every
`batch_size` consecutive CallSpecs into one Batch, emitting a trailing
partial group. -/
def batcherOut (k : Nat) (specs : List (CallSpec α)) : List (CallSpec α) :=
  if k ≤ 1 then specs else (chunkList k specs).map mkBatch

/-! ### Chunking lemmas -/

theorem chunkGo_nil (k fuel : Nat) : chunkGo k fuel ([] : List σ) = [] := by
  cases fuel <;> rfl

theorem chunkGo_fuel (k : Nat) (hk : 1 ≤ k) :
    ∀ (n fuel : Nat) (l : List σ), l.length ≤ fuel → l.length ≤ n →
      chunkGo k fuel l = chunkGo k l.length l := by
  intro n
  induction n with
  | zero =>
    intro fuel l h1 h2
    have : l = [] := List.length_eq_zero.mp (Nat.le_zero.mp h2)
    subst this
    simp [chunkGo_nil]
  | succ n ih =>
    intro fuel l h1 h2
    match fuel, l with
    | fuel, [] => simp [chunkGo_nil]
    | 0, a :: l => simp at h1
    | fuel + 1, a :: l =>
      simp only [List.length_cons] at h1 h2
      have hd : ((a :: l).drop k).length ≤ l.length := by
        simp only [List.length_drop, List.length_cons]; omega
      rw [chunkGo, ih fuel _ (by omega) (by omega)]
      show _ = chunkGo k (l.length + 1) (a :: l)
      rw [chunkGo, ih l.length _ (by omega) (by omega)]

theorem chunkList_cons (k : Nat) (hk : 1 ≤ k) (l : List σ) (hl : l ≠ []) :
    chunkList k l = l.take k :: chunkList k (l.drop k) := by
  match l with
  | a :: l =>
    show chunkGo k (l.length + 1) (a :: l) = _
    have hd : ((a :: l).drop k).length ≤ l.length := by
      simp only [List.length_drop, List.length_cons]; omega
    rw [chunkGo, chunkGo_fuel k hk l.length l.length _ (by omega) (by omega)]
    rfl

theorem chunkList_nil (k : Nat) : chunkList k ([] : List σ) = [] := rfl

theorem chunkList_flatten (k : Nat) (hk : 1 ≤ k) (l : List σ) :
    (chunkList k l).flatten = l := by
  suffices H : ∀ (n : Nat) (l : List σ), l.length ≤ n → (chunkList k l).flatten = l from
    H l.length l le_rfl
  intro n
  induction n with
  | zero =>
    intro l h
    have : l = [] := List.length_eq_zero.mp (Nat.le_zero.mp h)
    subst this; rfl
  | succ n ih =>
    intro l h
    match l with
    | [] => rfl
    | a :: l =>
      rw [chunkList_cons k hk _ (by simp)]
      have hd : ((a :: l).drop k).length ≤ n := by
        simp only [List.length_drop, List.length_cons]
        simp only [List.length_cons] at h
        omega
      rw [List.flatten_cons, ih _ hd]
      exact List.take_append_drop k (a :: l)

theorem chunkList_length (k : Nat) (hk : 1 ≤ k) (l : List σ) :
    (chunkList k l).length = (l.length + k - 1) / k := by
  suffices H : ∀ (n : Nat) (l : List σ), l.length ≤ n →
      (chunkList k l).length = (l.length + k - 1) / k from H l.length l le_rfl
  intro n
  induction n with
  | zero =>
    intro l h
    have : l = [] := List.length_eq_zero.mp (Nat.le_zero.mp h)
    subst this
    simp [chunkList_nil, (Nat.div_eq_of_lt (by omega) : (k - 1) / k = 0)]
  | succ n ih =>
    intro l h
    match l with
    | [] => simp [chunkList_nil, (Nat.div_eq_of_lt (by omega) : (k - 1) / k = 0)]
    | a :: l =>
      rw [chunkList_cons k hk _ (by simp)]
      have hd : ((a :: l).drop k).length ≤ n := by
        simp only [List.length_drop, List.length_cons]
        simp only [List.length_cons] at h
        omega
      rw [List.length_cons, ih _ hd]
      simp only [List.length_drop, List.length_cons]
      rcases Nat.lt_or_ge (l.length + 1) k with hc | hc
      · have h1 : l.length + 1 - k = 0 := by omega
        have h2 : (l.length + 1 + k - 1) / k = 1 := by
          rw [Nat.div_eq_sub_div (by omega) (by omega), Nat.div_eq_of_lt (by omega)]
        rw [h1, h2]
        simp [(Nat.div_eq_of_lt (by omega) : (k - 1) / k = 0)]
      · have h3 : l.length + 1 + k - 1 = (l.length + 1 - k + k - 1) + k := by omega
        rw [h3, Nat.add_div_right _ (by omega)]

theorem chunkList_mem_length (k : Nat) (hk : 1 ≤ k) (l : List σ) :
    ∀ c ∈ chunkList k l, c ≠ [] ∧ c.length ≤ k := by
  suffices H : ∀ (n : Nat) (l : List σ), l.length ≤ n →
      ∀ c ∈ chunkList k l, c ≠ [] ∧ c.length ≤ k from H l.length l le_rfl
  intro n
  induction n with
  | zero =>
    intro l h
    have : l = [] := List.length_eq_zero.mp (Nat.le_zero.mp h)
    subst this
    simp [chunkList_nil]
  | succ n ih =>
    intro l h
    match l with
    | [] => simp [chunkList_nil]
    | a :: l =>
      rw [chunkList_cons k hk _ (by simp)]
      intro c hc
      rcases List.mem_cons.mp hc with hc | hc
      · subst hc
        refine ⟨?_, ?_⟩
        · simp only [ne_eq, List.take_eq_nil_iff]
          push_neg
          exact ⟨by omega, by simp⟩
        · simp only [List.length_take, List.length_cons]
          omega
      · have hd : ((a :: l).drop k).length ≤ n := by
          simp only [List.length_drop, List.length_cons]
          simp only [List.length_cons] at h
          omega
        exact ih _ hd c hc

theorem getLast?_cons_ne (a : σ) (l : List σ) (h : l ≠ []) :
    (a :: l).getLast? = l.getLast? := by
  match l with
  | b :: l => rfl

theorem chunkList_getLast (k : Nat) (hk : 1 ≤ k) (l : List σ) (hl : l ≠ []) :
    (chunkList k l).getLast?.map List.length
      = some (if l.length % k = 0 then k else l.length % k) := by
  suffices H : ∀ (n : Nat) (l : List σ), l.length ≤ n → l ≠ [] →
      (chunkList k l).getLast?.map List.length
        = some (if l.length % k = 0 then k else l.length % k) from H l.length l le_rfl hl
  intro n
  induction n with
  | zero =>
    intro l h hne
    exact absurd (List.length_eq_zero.mp (Nat.le_zero.mp h)) hne
  | succ n ih =>
    intro l h hne
    match l with
    | a :: l =>
      rw [chunkList_cons k hk _ (by simp)]
      simp only [List.length_cons] at h
      rcases le_or_lt (l.length + 1) k with hc | hc
      case inl =>
        -- the whole list fits into a single, final chunk
        have hdrop : (a :: l).drop k = [] := by
          rw [List.drop_eq_nil_iff]
          simp only [List.length_cons]
          omega
        rw [hdrop, chunkList_nil]
        simp only [List.getLast?_singleton, Option.map_some', List.length_take,
          List.length_cons, Option.some.injEq]
        rcases Nat.lt_or_ge (l.length + 1) k with hlen | hlen
        · rw [Nat.mod_eq_of_lt hlen, if_neg (by omega)]
          omega
        · have hk2 : l.length + 1 = k := by omega
          rw [hk2]
          simp [Nat.mod_self]
      case inr =>
        -- at least one further chunk follows
        have hdrop : (a :: l).drop k ≠ [] := by
          simp only [ne_eq, List.drop_eq_nil_iff, List.length_cons]
          omega
        have hd : ((a :: l).drop k).length ≤ n := by
          simp only [List.length_drop, List.length_cons]
          omega
        have hcons : chunkList k ((a :: l).drop k) ≠ [] := by
          rw [chunkList_cons k hk _ hdrop]
          simp
        rw [getLast?_cons_ne _ _ hcons, ih _ hd hdrop]
        congr 1
        have hmod : (l.length + 1) % k = (l.length + 1 - k) % k :=
          Nat.mod_eq_sub_mod (by omega)
        simp only [List.length_drop, List.length_cons]
        rw [← hmod]

/-! ### Zipping lemmas -/

theorem foldr_min_zero (rest : List (List σ)) :
    List.foldr (fun (l : List σ) m => min l.length m) 0 rest = 0 := by
  induction rest with
  | nil => rfl
  | cons l rest ih => simp [ih]

theorem foldr_min_le_mem {rest : List (List σ)} {l : List σ} (h : l ∈ rest) (n : Nat) :
    List.foldr (fun (l : List σ) m => min l.length m) n rest ≤ l.length := by
  induction rest with
  | nil => cases h
  | cons x rest ih =>
    rcases List.mem_cons.mp h with h | h
    · subst h; exact min_le_left _ _
    · exact le_trans (min_le_right _ _) (ih h)

theorem zipHeads_none {rest : List (List σ)} (h : zipHeads rest = none) :
    ∃ l ∈ rest, l = [] := by
  induction rest with
  | nil => simp [zipHeads] at h
  | cons x rest ih =>
    match x with
    | [] => exact ⟨[], by simp⟩
    | a :: as =>
      rw [zipHeads] at h
      match hz : zipHeads rest with
      | none =>
        obtain ⟨l, hl, he⟩ := ih hz
        exact ⟨l, List.mem_cons_of_mem _ hl, he⟩
      | some (hs, ts) => rw [hz] at h; simp at h

theorem zipHeads_some_foldr {rest ts : List (List σ)} {hs : List σ}
    (h : zipHeads rest = some (hs, ts)) (n : Nat) :
    List.foldr (fun (l : List σ) m => min l.length m) (n + 1) rest
      = List.foldr (fun (l : List σ) m => min l.length m) n ts + 1 := by
  induction rest generalizing ts hs n with
  | nil =>
    rw [zipHeads] at h
    cases h
    rfl
  | cons x rest ih =>
    match x with
    | [] => simp [zipHeads] at h
    | a :: as =>
      rw [zipHeads] at h
      match hz : zipHeads rest with
      | none => rw [hz] at h; cases h
      | some (hs', ts') =>
        rw [hz] at h
        cases h
        simp only [List.foldr_cons, List.length_cons, ih hz n]
        omega

theorem zipAllGo_length (first : List σ) (rest : List (List σ)) :
    (zipAllGo first rest).length
      = List.foldr (fun (l : List σ) m => min l.length m) first.length rest := by
  induction first generalizing rest with
  | nil => simp [zipAllGo, foldr_min_zero]
  | cons a as ih =>
    rw [zipAllGo]
    match hz : zipHeads rest with
    | none =>
      obtain ⟨l, hl, he⟩ := zipHeads_none hz
      have := foldr_min_le_mem hl (as.length + 1)
      simp only [he, List.length_nil, Nat.le_zero] at this
      simp [this]
    | some (hs, ts) =>
      simp only [List.length_cons, List.length_nil]
      rw [zipHeads_some_foldr hz, ih ts]

theorem zipAllGo_pair (s1 s2 : List σ) :
    zipAllGo s1 [s2] = List.zipWith (fun a b => [a, b]) s1 s2 := by
  induction s1 generalizing s2 with
  | nil => rfl
  | cons a as ih =>
    match s2 with
    | [] => rfl
    | b :: bs =>
      rw [zipAllGo]
      show (a :: [b]) :: zipAllGo as [bs] = _
      rw [ih bs]
      rfl

/-! ### The Prefetch Scheduler and Result Sequencer -/

/-- Events observable at the Scheduler's upstream boundary during a
run: a Batch/CallSpec being pulled from the Batcher, and the body of a
dispatched call completing as its Task is consumed. -/
inductive Ev (α : Type) where
  | pulled (c : CallSpec α)
  | completed

/-- Modelled from the spec: a Task is "a CallSpec plus a handle" (§3).
The engine's execution of the call is modelled by the stored result
(value or captured exception) and, for ordering purposes, by the
call's execution delay, assigned from the submission index. -/
structure Task (α ε β : Type) where
  spec : CallSpec α
  res : Except ε β
  delay : Nat

/-- Modelled from the spec: the Scheduler's mutable state — the not
yet pulled upstream items, whether the head of `upcoming` was already
pulled ahead into a free-slot wait (look-ahead), the number of calls
dispatched so far, and the Prefetch Window of dispatched-but-not-yet
consumed Tasks in submission order (§3, §4.3). -/
structure MState (α ε β : Type) where
  upcoming : List (CallSpec α)
  pulledAhead : Bool
  nextIdx : Nat
  window : List (Task α ε β)

/-- Number of work items not yet delivered downstream. -/
def totalCount (s : MState α ε β) : Nat := s.upcoming.length + s.window.length

/-- Free slots of the Prefetch Window: unbounded when `num_prepare` is
unset in an engine context (§4.3). -/
def room (bound : Option Nat) (winLen avail : Nat) : Nat :=
  match bound with
  | none => avail
  | some w => w - winLen

/-- Dispatch a list of CallSpecs as Tasks, numbering them from `n`. -/
def mkTasks (f : CallSpec α → Except ε β) (delay : Nat → Nat) :
    Nat → List (CallSpec α) → List (Task α ε β)
  | _, [] => []
  | n, c :: cs => ⟨c, f c, delay n⟩ :: mkTasks f delay (n + 1) cs

/-- Modelled from the spec: `fill()` (§4.3) — while free slots exist
and upstream is not exhausted, pull the next Batch/CallSpec and
dispatch it; when the window is full and a look-ahead window is
configured, the next item is still pulled and waits for a free slot
(`pulledAhead`).  The failure latch of §4.3 is realized by the
Sequencer never invoking `fill` after observing a failure. -/
def fill (f : CallSpec α → Except ε β) (delay : Nat → Nat) (bound : Option Nat)
    (preload : Bool) (s : MState α ε β) : MState α ε β × List (Ev α) :=
  let d := min (room bound s.window.length s.upcoming.length) s.upcoming.length
  let rest := s.upcoming.drop d
  let newPA := (preload || (s.pulledAhead && d == 0)) && !rest.isEmpty
  let dispatchEvs :=
    (if s.pulledAhead then (s.upcoming.take d).drop 1 else s.upcoming.take d).map Ev.pulled
  let aheadEvs : List (Ev α) :=
    if newPA && !(s.pulledAhead && d == 0) then (rest.take 1).map Ev.pulled else []
  (⟨rest, newPA, s.nextIdx + d,
    s.window ++ mkTasks f delay s.nextIdx (s.upcoming.take d)⟩,
   dispatchEvs ++ aheadEvs)

/-- Ordering mode of the Result Sequencer (§4.4). -/
inductive Mode where
  | submission
  | completion

/-- Extract the Task with the smallest delay (earliest actual
completion), keeping the submission order of the remaining Tasks. -/
def extractMinDelay : Task α ε β → List (Task α ε β) → Task α ε β × List (Task α ε β)
  | t, [] => (t, [])
  | t, u :: us =>
      if u.delay < t.delay then
        let p := extractMinDelay u us
        (p.1, t :: p.2)
      else
        let p := extractMinDelay t us
        (p.1, u :: p.2)

/-- Modelled from the spec: `take_next()` returns the oldest Task in
submission order; `take_next_completed()` returns whichever
outstanding Task finishes first (§4.3). -/
def pickTask : Mode → List (Task α ε β) → Option (Task α ε β × List (Task α ε β))
  | _, [] => none
  | .submission, t :: ts => some (t, ts)
  | .completion, t :: ts => some (extractMinDelay t ts)

/-- Modelled from the spec: the Result Sequencer's drive loop (§4.4)
with structural fuel (always instantiated with `totalCount`, which
bounds the number of consumptions).  Each iteration refills the
window, consumes one Task in the active ordering mode, applies the
`on_return` transform `r` to a resolved value and yields it, or
terminates the run at a captured error.  Returns the yielded values,
the error that ended the run (if any), the event trace, and the final
scheduler state. -/
def runGo (f : CallSpec α → Except ε β) (delay : Nat → Nat) (bound : Option Nat)
    (preload : Bool) (mode : Mode) (r : β → γ) :
    Nat → MState α ε β → List γ × Option ε × List (Ev α) × MState α ε β
  | 0, s => ([], none, [], s)
  | fuel + 1, s =>
      let fr := fill f delay bound preload s
      match pickTask mode fr.1.window with
      | none => ([], none, fr.2, fr.1)
      | some (t, rest) =>
          match t.res with
          | .error e =>
              ([], some e, fr.2 ++ [.completed],
               ⟨fr.1.upcoming, fr.1.pulledAhead, fr.1.nextIdx, rest⟩)
          | .ok b =>
              let out := runGo f delay bound preload mode r fuel
                ⟨fr.1.upcoming, fr.1.pulledAhead, fr.1.nextIdx, rest⟩
              (r b :: out.1, out.2.1, fr.2 ++ .completed :: out.2.2.1, out.2.2.2)

/-- Run the Sequencer drive loop to exhaustion. -/
def runMap (f : CallSpec α → Except ε β) (delay : Nat → Nat) (bound : Option Nat)
    (preload : Bool) (mode : Mode) (r : β → γ) (s : MState α ε β) :
    List γ × Option ε × List (Ev α) × MState α ε β :=
  runGo f delay bound preload mode r (totalCount s) s

/-- Fresh scheduler state over a stream of CallSpecs. -/
def initState (specs : List (CallSpec α)) : MState α ε β := ⟨specs, false, 0, []⟩

/-- Modelled from the spec: the effective window bound (§4.3) — the
configured `num_prepare` when set; otherwise unbounded with an engine
(the whole input is drained eagerly) and one-at-a-time without one. -/
def windowBound (engine : Bool) (numPrepare : Option Nat) : Option Nat :=
  match numPrepare with
  | some w => some w
  | none => if engine then none else some 1

/-- Modelled from the spec: the public `map` operation of the missing
`fluentmap.py` (§6), composed of the CallSpec Adapter, the Batcher,
the Prefetch Scheduler and the Result Sequencer: `f` the mapped
function (returning a value or a captured exception), `r` the
`on_return` transform, `batchSize`, whether an execution engine was
supplied, `num_prepare`, `sort_by_completion`, and the engine timing
`delay` giving each dispatched call's execution time. -/
def fmapRun (f : CallSpec α → Except ε β) (r : β → γ) (batchSize : Nat)
    (engine : Bool) (numPrepare : Option Nat) (sortByCompletion : Bool)
    (delay : Nat → Nat) (inp : Inputs α) :
    List γ × Option ε × List (Ev α) × MState α ε β :=
  runMap f delay (windowBound engine numPrepare) numPrepare.isSome
    (match sortByCompletion with | true => Mode.completion | false => Mode.submission) r
    (initState (batcherOut batchSize (callSpecs inp)))

/-- Reference sequencing of a list of call results: the values before
the first captured error, transformed, together with that error. -/
def collectResults (r : β → γ) : List (Except ε β) → List γ × Option ε
  | [] => ([], none)
  | .error e :: _ => ([], some e)
  | .ok b :: es => (r b :: (collectResults r es).1, (collectResults r es).2)

/-- The results the run still has to deliver: resolved window Tasks in
submission order, then the calls not yet dispatched. -/
def pendingResults (f : CallSpec α → Except ε β) (s : MState α ε β) :
    List (Except ε β) :=
  s.window.map Task.res ++ s.upcoming.map f

/-- The window bound admits dispatching at least one call. -/
def boundOK : Option Nat → Prop
  | none => True
  | some w => 1 ≤ w

/-! ### Scheduler component lemmas -/

theorem mkTasks_res (f : CallSpec α → Except ε β) (delay : Nat → Nat) :
    ∀ (n : Nat) (cs : List (CallSpec α)), (mkTasks f delay n cs).map Task.res = cs.map f := by
  intro n cs
  induction cs generalizing n with
  | nil => rfl
  | cons c cs ih => simp [mkTasks, ih]

theorem mkTasks_length (f : CallSpec α → Except ε β) (delay : Nat → Nat) :
    ∀ (n : Nat) (cs : List (CallSpec α)), (mkTasks f delay n cs).length = cs.length := by
  intro n cs
  induction cs generalizing n with
  | nil => rfl
  | cons c cs ih => simp [mkTasks, ih]

theorem mkTasks_eq_nil (f : CallSpec α → Except ε β) (delay : Nat → Nat)
    (n : Nat) (cs : List (CallSpec α)) (h : mkTasks f delay n cs = []) : cs = [] := by
  match cs with
  | [] => rfl
  | c :: cs => simp [mkTasks] at h

theorem fill_upcoming (f : CallSpec α → Except ε β) (delay : Nat → Nat)
    (bound : Option Nat) (preload : Bool) (s : MState α ε β) :
    (fill f delay bound preload s).1.upcoming
      = s.upcoming.drop
          (min (room bound s.window.length s.upcoming.length) s.upcoming.length) := rfl

theorem fill_window (f : CallSpec α → Except ε β) (delay : Nat → Nat)
    (bound : Option Nat) (preload : Bool) (s : MState α ε β) :
    (fill f delay bound preload s).1.window
      = s.window ++ mkTasks f delay s.nextIdx
          (s.upcoming.take
            (min (room bound s.window.length s.upcoming.length) s.upcoming.length)) := rfl

theorem fill_nextIdx (f : CallSpec α → Except ε β) (delay : Nat → Nat)
    (bound : Option Nat) (preload : Bool) (s : MState α ε β) :
    (fill f delay bound preload s).1.nextIdx
      = s.nextIdx
        + min (room bound s.window.length s.upcoming.length) s.upcoming.length := rfl

theorem fill_pending (f : CallSpec α → Except ε β) (delay : Nat → Nat)
    (bound : Option Nat) (preload : Bool) (s : MState α ε β) :
    pendingResults f (fill f delay bound preload s).1 = pendingResults f s := by
  simp only [pendingResults, fill_window, fill_upcoming, List.map_append, mkTasks_res,
    List.append_assoc]
  congr 1
  rw [← List.map_append, List.take_append_drop]

theorem fill_total (f : CallSpec α → Except ε β) (delay : Nat → Nat)
    (bound : Option Nat) (preload : Bool) (s : MState α ε β) :
    totalCount (fill f delay bound preload s).1 = totalCount s := by
  simp only [totalCount, fill_upcoming, fill_window, List.length_append, mkTasks_length,
    List.length_drop, List.length_take]
  omega

theorem fill_window_length (f : CallSpec α → Except ε β) (delay : Nat → Nat)
    (bound : Option Nat) (preload : Bool) (s : MState α ε β) :
    (fill f delay bound preload s).1.window.length
      = s.window.length
        + min (room bound s.window.length s.upcoming.length) s.upcoming.length := by
  simp only [fill_window, List.length_append, mkTasks_length, List.length_take]
  omega

theorem fill_window_le (f : CallSpec α → Except ε β) (delay : Nat → Nat)
    (w : Nat) (preload : Bool) (s : MState α ε β) (h : s.window.length ≤ w) :
    (fill f delay (some w) preload s).1.window.length ≤ w := by
  rw [fill_window_length]
  simp only [room]
  omega

theorem fill_nil_pending (f : CallSpec α → Except ε β) (delay : Nat → Nat)
    (bound : Option Nat) (preload : Bool) (s : MState α ε β) (hb : boundOK bound)
    (h : (fill f delay bound preload s).1.window = []) : pendingResults f s = [] := by
  have hlen := fill_window_length f delay bound preload s
  rw [h] at hlen
  simp only [List.length_nil] at hlen
  have hwin : s.window.length = 0 := by omega
  have hmin : min (room bound s.window.length s.upcoming.length) s.upcoming.length = 0 := by
    omega
  have hup : s.upcoming.length = 0 := by
    by_contra hne
    have h1 : 1 ≤ s.upcoming.length := by omega
    match bound with
    | none => simp only [room] at hmin; omega
    | some w =>
      simp only [room] at hmin
      simp only [boundOK] at hb
      omega
  simp [pendingResults, List.length_eq_zero.mp hwin, List.length_eq_zero.mp hup]

theorem extractMinDelay_length (t : Task α ε β) (ts : List (Task α ε β)) :
    (extractMinDelay t ts).2.length = ts.length := by
  induction ts generalizing t with
  | nil => rfl
  | cons u us ih =>
    rw [extractMinDelay]
    by_cases hc : u.delay < t.delay <;> simp [hc, ih]

theorem pickTask_length {mode : Mode} {l rest : List (Task α ε β)} {t : Task α ε β}
    (h : pickTask mode l = some (t, rest)) : rest.length + 1 = l.length := by
  match mode, l with
  | .submission, [] => simp [pickTask] at h
  | .completion, [] => simp [pickTask] at h
  | .submission, u :: us =>
    simp only [pickTask, Option.some.injEq, Prod.mk.injEq] at h
    rw [← h.2]
    simp
  | .completion, u :: us =>
    simp only [pickTask, Option.some.injEq] at h
    have h2 := congrArg Prod.snd h
    simp only at h2
    rw [← h2, extractMinDelay_length]
    simp

/-! ### Submission-order master theorem -/

theorem runGo_submission (f : CallSpec α → Except ε β) (delay : Nat → Nat)
    (bound : Option Nat) (preload : Bool) (r : β → γ) (hb : boundOK bound) :
    ∀ (fuel : Nat) (s : MState α ε β), totalCount s ≤ fuel →
      ((runGo f delay bound preload .submission r fuel s).1,
       (runGo f delay bound preload .submission r fuel s).2.1)
        = collectResults r (pendingResults f s) := by
  intro fuel
  induction fuel with
  | zero =>
    intro s h
    simp only [totalCount, Nat.le_zero, Nat.add_eq_zero] at h
    have h1 : s.upcoming = [] := List.length_eq_zero.mp h.1
    have h2 : s.window = [] := List.length_eq_zero.mp h.2
    simp [runGo, pendingResults, h1, h2, collectResults]
  | succ fuel ih =>
    intro s h
    have hpend := fill_pending f delay bound preload s
    have htot := fill_total f delay bound preload s
    simp only [runGo]
    cases hw : (fill f delay bound preload s).1.window with
    | nil =>
      have hp : pendingResults f s = [] :=
        fill_nil_pending f delay bound preload s hb hw
      simp [pickTask, hp, collectResults]
    | cons t ts =>
      simp only [pickTask]
      rw [← hpend]
      simp only [pendingResults, hw, List.map_cons, List.cons_append]
      cases hr : t.res with
      | error e => simp [collectResults]
      | ok b =>
        simp only [collectResults]
        have h2 : totalCount
            (⟨(fill f delay bound preload s).1.upcoming,
              (fill f delay bound preload s).1.pulledAhead,
              (fill f delay bound preload s).1.nextIdx, ts⟩ : MState α ε β) ≤ fuel := by
          simp only [totalCount] at htot h ⊢
          rw [hw] at htot
          simp only [List.length_cons] at htot
          omega
        have hih := ih ⟨(fill f delay bound preload s).1.upcoming,
              (fill f delay bound preload s).1.pulledAhead,
              (fill f delay bound preload s).1.nextIdx, ts⟩ h2
        simp only [pendingResults] at hih
        rw [Prod.ext_iff] at hih
        simp only at hih
        simp [hih.1, hih.2]

/-! ### Trace counting -/

/-- Number of call completions recorded in a trace. -/
def countCompleted : List (Ev α) → Nat
  | [] => 0
  | .completed :: es => countCompleted es + 1
  | .pulled _ :: es => countCompleted es

/-- Number of upstream pulls recorded in a trace. -/
def countPulled : List (Ev α) → Nat
  | [] => 0
  | .completed :: es => countPulled es
  | .pulled _ :: es => countPulled es + 1

theorem countCompleted_append (a b : List (Ev α)) :
    countCompleted (a ++ b) = countCompleted a + countCompleted b := by
  induction a with
  | nil => simp [countCompleted]
  | cons e es ih =>
    match e with
    | .completed => simp [countCompleted, ih]; omega
    | .pulled c => simp [countCompleted, ih]

theorem countPulled_append (a b : List (Ev α)) :
    countPulled (a ++ b) = countPulled a + countPulled b := by
  induction a with
  | nil => simp [countPulled]
  | cons e es ih =>
    match e with
    | .completed => simp [countPulled, ih]
    | .pulled c => simp [countPulled, ih]; omega

theorem countCompleted_map_pulled (l : List (CallSpec α)) :
    countCompleted (l.map Ev.pulled) = 0 := by
  induction l with
  | nil => rfl
  | cons c cs ih => simp [countCompleted, ih]

theorem fill_evs_completed (f : CallSpec α → Except ε β) (delay : Nat → Nat)
    (bound : Option Nat) (preload : Bool) (s : MState α ε β) :
    countCompleted (fill f delay bound preload s).2 = 0 := by
  show countCompleted (_ ++ _) = 0
  rw [countCompleted_append]
  have h1 : ∀ (c : Bool) (a b : List (CallSpec α)),
      countCompleted ((if c = true then a else b).map Ev.pulled) = 0 := by
    intro c a b
    cases c <;> simp [countCompleted_map_pulled]
  rw [h1]
  have h2 : ∀ (c : Bool) (a : List (CallSpec α)),
      countCompleted (if c = true then a.map Ev.pulled else []) = 0 := by
    intro c a
    cases c <;> simp [countCompleted_map_pulled, countCompleted]
  rw [h2]

/-! ### Equation lemmas for the drive loop -/

theorem runGo_zero (f : CallSpec α → Except ε β) (delay : Nat → Nat) (bound : Option Nat)
    (preload : Bool) (mode : Mode) (r : β → γ) (s : MState α ε β) :
    runGo f delay bound preload mode r 0 s = ([], none, [], s) := rfl

theorem runGo_succ_none (f : CallSpec α → Except ε β) (delay : Nat → Nat)
    (bound : Option Nat) (preload : Bool) (mode : Mode) (r : β → γ) (fuel : Nat)
    (s : MState α ε β)
    (h : pickTask mode (fill f delay bound preload s).1.window = none) :
    runGo f delay bound preload mode r (fuel + 1) s
      = ([], none, (fill f delay bound preload s).2, (fill f delay bound preload s).1) := by
  simp only [runGo, h]

theorem runGo_succ_error (f : CallSpec α → Except ε β) (delay : Nat → Nat)
    (bound : Option Nat) (preload : Bool) (mode : Mode) (r : β → γ) (fuel : Nat)
    (s : MState α ε β) (t : Task α ε β) (rest : List (Task α ε β)) (e : ε)
    (h1 : pickTask mode (fill f delay bound preload s).1.window = some (t, rest))
    (h2 : t.res = .error e) :
    runGo f delay bound preload mode r (fuel + 1) s
      = ([], some e, (fill f delay bound preload s).2 ++ [Ev.completed],
         ⟨(fill f delay bound preload s).1.upcoming,
          (fill f delay bound preload s).1.pulledAhead,
          (fill f delay bound preload s).1.nextIdx, rest⟩) := by
  simp only [runGo, h1, h2]

theorem runGo_succ_ok (f : CallSpec α → Except ε β) (delay : Nat → Nat)
    (bound : Option Nat) (preload : Bool) (mode : Mode) (r : β → γ) (fuel : Nat)
    (s : MState α ε β) (t : Task α ε β) (rest : List (Task α ε β)) (b : β)
    (h1 : pickTask mode (fill f delay bound preload s).1.window = some (t, rest))
    (h2 : t.res = .ok b) :
    runGo f delay bound preload mode r (fuel + 1) s
      = (r b :: (runGo f delay bound preload mode r fuel
           ⟨(fill f delay bound preload s).1.upcoming,
            (fill f delay bound preload s).1.pulledAhead,
            (fill f delay bound preload s).1.nextIdx, rest⟩).1,
         (runGo f delay bound preload mode r fuel
           ⟨(fill f delay bound preload s).1.upcoming,
            (fill f delay bound preload s).1.pulledAhead,
            (fill f delay bound preload s).1.nextIdx, rest⟩).2.1,
         (fill f delay bound preload s).2
           ++ Ev.completed :: (runGo f delay bound preload mode r fuel
           ⟨(fill f delay bound preload s).1.upcoming,
            (fill f delay bound preload s).1.pulledAhead,
            (fill f delay bound preload s).1.nextIdx, rest⟩).2.2.1,
         (runGo f delay bound preload mode r fuel
           ⟨(fill f delay bound preload s).1.upcoming,
            (fill f delay bound preload s).1.pulledAhead,
            (fill f delay bound preload s).1.nextIdx, rest⟩).2.2.2) := by
  simp only [runGo, h1, h2]

/-! ### Dispatch accounting under a bounded window -/

theorem runGo_dispatch_bound (f : CallSpec α → Except ε β) (delay : Nat → Nat)
    (w : Nat) (preload : Bool) (mode : Mode) (r : β → γ) :
    ∀ (fuel : Nat) (s : MState α ε β), totalCount s ≤ fuel → s.window.length ≤ w →
      (runGo f delay (some w) preload mode r fuel s).2.2.2.nextIdx + s.window.length
        ≤ s.nextIdx + w
          + countCompleted (runGo f delay (some w) preload mode r fuel s).2.2.1 := by
  intro fuel
  induction fuel with
  | zero =>
    intro s h hw
    simp only [runGo_zero, countCompleted]
    omega
  | succ fuel ih =>
    intro s h hw
    have htot := fill_total f delay (some w) preload s
    have hwl := fill_window_length f delay (some w) preload s
    have hwle := fill_window_le f delay w preload s hw
    have hni := fill_nextIdx f delay (some w) preload s
    have hevc := fill_evs_completed f delay (some w) preload s
    cases hp : pickTask mode (fill f delay (some w) preload s).1.window with
    | none =>
      rw [runGo_succ_none f delay (some w) preload mode r fuel s hp]
      simp only [hevc]
      omega
    | some pr =>
      match pr with
      | (t, rest) =>
        have hlen := pickTask_length hp
        cases hr : t.res with
        | error e =>
          rw [runGo_succ_error f delay (some w) preload mode r fuel s t rest e hp hr]
          simp only [countCompleted_append, hevc, countCompleted]
          omega
        | ok b =>
          rw [runGo_succ_ok f delay (some w) preload mode r fuel s t rest b hp hr]
          have h2 : totalCount
              (⟨(fill f delay (some w) preload s).1.upcoming,
                (fill f delay (some w) preload s).1.pulledAhead,
                (fill f delay (some w) preload s).1.nextIdx, rest⟩ : MState α ε β) ≤ fuel := by
            simp only [totalCount] at htot h ⊢
            omega
          have h3 : (rest : List (Task α ε β)).length ≤ w := by omega
          have hihr := ih ⟨(fill f delay (some w) preload s).1.upcoming,
                (fill f delay (some w) preload s).1.pulledAhead,
                (fill f delay (some w) preload s).1.nextIdx, rest⟩ h2 h3
          simp only at hihr
          simp only [countCompleted_append, hevc, countCompleted]
          omega

/-! ### Error termination: the trace ends at the failing consumption -/

theorem runGo_error_trace (f : CallSpec α → Except ε β) (delay : Nat → Nat)
    (bound : Option Nat) (preload : Bool) (mode : Mode) (r : β → γ) (e : ε) :
    ∀ (fuel : Nat) (s : MState α ε β),
      (runGo f delay bound preload mode r fuel s).2.1 = some e →
      ∃ pre, (runGo f delay bound preload mode r fuel s).2.2.1 = pre ++ [Ev.completed] := by
  intro fuel
  induction fuel with
  | zero =>
    intro s h
    simp [runGo_zero] at h
  | succ fuel ih =>
    intro s h
    cases hp : pickTask mode (fill f delay bound preload s).1.window with
    | none =>
      rw [runGo_succ_none f delay bound preload mode r fuel s hp] at h
      simp at h
    | some pr =>
      match pr with
      | (t, rest) =>
        cases hr : t.res with
        | error e2 =>
          rw [runGo_succ_error f delay bound preload mode r fuel s t rest e2 hp hr]
          exact ⟨(fill f delay bound preload s).2, rfl⟩
        | ok b =>
          rw [runGo_succ_ok f delay bound preload mode r fuel s t rest b hp hr] at h ⊢
          simp only at h ⊢
          obtain ⟨pre, hpre⟩ := ih _ h
          rw [hpre]
          exact ⟨(fill f delay bound preload s).2 ++ Ev.completed :: pre, by simp⟩

/-! ### Completion counts match yields -/

theorem runGo_completed_yields (f : CallSpec α → Except ε β) (delay : Nat → Nat)
    (bound : Option Nat) (preload : Bool) (mode : Mode) (r : β → γ) :
    ∀ (fuel : Nat) (s : MState α ε β),
      countCompleted (runGo f delay bound preload mode r fuel s).2.2.1
        = (runGo f delay bound preload mode r fuel s).1.length
          + (match (runGo f delay bound preload mode r fuel s).2.1 with
             | some _ => 1 | none => 0) := by
  intro fuel
  induction fuel with
  | zero =>
    intro s
    simp [runGo_zero, countCompleted]
  | succ fuel ih =>
    intro s
    have hevc := fill_evs_completed f delay bound preload s
    cases hp : pickTask mode (fill f delay bound preload s).1.window with
    | none =>
      rw [runGo_succ_none f delay bound preload mode r fuel s hp]
      simp [hevc]
    | some pr =>
      match pr with
      | (t, rest) =>
        cases hr : t.res with
        | error e =>
          rw [runGo_succ_error f delay bound preload mode r fuel s t rest e hp hr]
          simp only [countCompleted_append, hevc, countCompleted, List.length_nil]
        | ok b =>
          rw [runGo_succ_ok f delay bound preload mode r fuel s t rest b hp hr]
          have hihr := ih ⟨(fill f delay bound preload s).1.upcoming,
                (fill f delay bound preload s).1.pulledAhead,
                (fill f delay bound preload s).1.nextIdx, rest⟩
          simp only [countCompleted_append, hevc, countCompleted, List.length_cons]
          simp only at hihr
          omega

/-! ### Completion-order sequencing -/

theorem extractMinDelay_perm (t : Task α ε β) (ts : List (Task α ε β)) :
    List.Perm (t :: ts) ((extractMinDelay t ts).1 :: (extractMinDelay t ts).2) := by
  induction ts generalizing t with
  | nil => exact List.Perm.refl _
  | cons u us ih =>
    rw [extractMinDelay]
    by_cases hc : u.delay < t.delay
    · rw [if_pos hc]
      refine List.Perm.trans (List.Perm.cons t (ih u)) ?_
      exact List.Perm.swap (extractMinDelay u us).1 t (extractMinDelay u us).2
    · rw [if_neg hc]
      refine List.Perm.trans (List.Perm.swap u t us) ?_
      refine List.Perm.trans (List.Perm.cons u (ih t)) ?_
      exact List.Perm.swap (extractMinDelay t us).1 u (extractMinDelay t us).2

theorem extractMinDelay_min (t : Task α ε β) (ts : List (Task α ε β)) :
    ∀ x ∈ t :: ts, (extractMinDelay t ts).1.delay ≤ x.delay := by
  induction ts generalizing t with
  | nil =>
    intro x hx
    rcases List.mem_cons.mp hx with hx | hx
    · subst hx; exact le_refl _
    · cases hx
  | cons u us ih =>
    intro x hx
    rw [extractMinDelay]
    by_cases hc : u.delay < t.delay
    · rw [if_pos hc]
      show (extractMinDelay u us).1.delay ≤ x.delay
      rcases List.mem_cons.mp hx with hx | hx
      · subst hx
        exact le_trans (ih u u (List.mem_cons_self u us)) (le_of_lt hc)
      · exact ih u x hx
    · rw [if_neg hc]
      push_neg at hc
      show (extractMinDelay t us).1.delay ≤ x.delay
      rcases List.mem_cons.mp hx with hx | hx
      · subst hx
        exact ih x x (List.mem_cons_self x us)
      · rcases List.mem_cons.mp hx with hx | hx
        · subst hx
          exact le_trans (ih t t (List.mem_cons_self t us)) hc
        · exact ih t x (List.mem_cons_of_mem t hx)

theorem extractMinDelay_fst_mem (t : Task α ε β) (ts : List (Task α ε β)) :
    (extractMinDelay t ts).1 ∈ t :: ts :=
  (extractMinDelay_perm t ts).symm.mem_iff.mp (List.mem_cons_self _ _)

theorem extractMinDelay_snd_subset (t : Task α ε β) (ts : List (Task α ε β)) :
    ∀ x ∈ (extractMinDelay t ts).2, x ∈ t :: ts := by
  intro x hx
  exact (extractMinDelay_perm t ts).symm.mem_iff.mp (List.mem_cons_of_mem _ hx)

/-- Selection sort by delay with structural fuel (always called with
the list's length): the order in which `take_next_completed` delivers
the outstanding Tasks. -/
def sortTasksGo : Nat → List (Task α ε β) → List (Task α ε β)
  | _, [] => []
  | 0, _ :: _ => []
  | fuel + 1, t :: ts =>
      (extractMinDelay t ts).1 :: sortTasksGo fuel (extractMinDelay t ts).2

/-- The outstanding Tasks in actual completion (delay) order. -/
def sortTasks (l : List (Task α ε β)) : List (Task α ε β) := sortTasksGo l.length l

theorem sortTasks_cons (t : Task α ε β) (ts : List (Task α ε β)) :
    sortTasks (t :: ts)
      = (extractMinDelay t ts).1 :: sortTasks (extractMinDelay t ts).2 := by
  show sortTasksGo (ts.length + 1) (t :: ts) = _
  rw [sortTasksGo]
  congr 1
  rw [sortTasks, extractMinDelay_length]

theorem sortTasks_perm (l : List (Task α ε β)) : List.Perm (sortTasks l) l := by
  suffices H : ∀ (n : Nat) (l : List (Task α ε β)), l.length ≤ n →
      List.Perm (sortTasks l) l from H l.length l le_rfl
  intro n
  induction n with
  | zero =>
    intro l h
    have : l = [] := List.length_eq_zero.mp (Nat.le_zero.mp h)
    subst this
    exact List.Perm.refl _
  | succ n ih =>
    intro l h
    match l with
    | [] => exact List.Perm.refl _
    | t :: ts =>
      rw [sortTasks_cons]
      have h2 : (extractMinDelay t ts).2.length ≤ n := by
        rw [extractMinDelay_length]
        simp only [List.length_cons] at h
        omega
      exact List.Perm.trans (List.Perm.cons _ (ih _ h2)) (extractMinDelay_perm t ts).symm

theorem sortTasks_sorted (l : List (Task α ε β)) :
    (sortTasks l).Pairwise (fun a b => a.delay ≤ b.delay) := by
  suffices H : ∀ (n : Nat) (l : List (Task α ε β)), l.length ≤ n →
      (sortTasks l).Pairwise (fun a b => a.delay ≤ b.delay) from H l.length l le_rfl
  intro n
  induction n with
  | zero =>
    intro l h
    have : l = [] := List.length_eq_zero.mp (Nat.le_zero.mp h)
    subst this
    exact List.Pairwise.nil
  | succ n ih =>
    intro l h
    match l with
    | [] => exact List.Pairwise.nil
    | t :: ts =>
      rw [sortTasks_cons]
      have h2 : (extractMinDelay t ts).2.length ≤ n := by
        rw [extractMinDelay_length]
        simp only [List.length_cons] at h
        omega
      refine List.Pairwise.cons ?_ (ih _ h2)
      intro b hb
      have hb2 : b ∈ (extractMinDelay t ts).2 := (sortTasks_perm _).mem_iff.mp hb
      exact extractMinDelay_min t ts b (extractMinDelay_snd_subset t ts b hb2)

theorem mkTasks_mem (f : CallSpec α → Except ε β) (delay : Nat → Nat) :
    ∀ (n : Nat) (cs : List (CallSpec α)) (t : Task α ε β),
      t ∈ mkTasks f delay n cs → t.res = f t.spec ∧ t.spec ∈ cs := by
  intro n cs
  induction cs generalizing n with
  | nil => intro t ht; cases ht
  | cons c cs ih =>
    intro t ht
    rw [mkTasks] at ht
    rcases List.mem_cons.mp ht with ht | ht
    · subst ht
      exact ⟨rfl, List.mem_cons_self _ _⟩
    · obtain ⟨h1, h2⟩ := ih (n + 1) t ht
      exact ⟨h1, List.mem_cons_of_mem _ h2⟩

theorem fill_none_window (f : CallSpec α → Except ε β) (delay : Nat → Nat)
    (preload : Bool) (s : MState α ε β) :
    (fill f delay none preload s).1.window
        = s.window ++ mkTasks f delay s.nextIdx s.upcoming
      ∧ (fill f delay none preload s).1.upcoming = [] := by
  constructor
  · rw [fill_window]
    simp [room, List.take_length]
  · rw [fill_upcoming]
    simp [room]

theorem runGo_completion_drained (g : CallSpec α → β) (delay : Nat → Nat)
    (preload : Bool) (r : β → γ) :
    ∀ (fuel : Nat) (s : MState α ε β), totalCount s ≤ fuel →
      (∀ t ∈ s.window, t.res = Except.ok (g t.spec)) →
      (runGo (fun c => Except.ok (g c)) delay none preload .completion r fuel s).1
          = (sortTasks (s.window
              ++ mkTasks (fun c => Except.ok (g c)) delay s.nextIdx s.upcoming)).map
              (fun t => r (g t.spec))
        ∧ (runGo (fun c => Except.ok (g c)) delay none preload .completion r fuel s).2.1
          = none := by
  intro fuel
  induction fuel with
  | zero =>
    intro s h hok
    simp only [totalCount, Nat.le_zero, Nat.add_eq_zero] at h
    have h1 : s.upcoming = [] := List.length_eq_zero.mp h.1
    have h2 : s.window = [] := List.length_eq_zero.mp h.2
    rw [runGo_zero]
    simp [h1, h2, mkTasks, sortTasks, sortTasksGo]
  | succ fuel ih =>
    intro s h hok
    set f := (fun c => Except.ok (g c) : CallSpec α → Except ε β) with hf
    obtain ⟨hwin, hup⟩ := fill_none_window f delay preload s
    have hallok : ∀ t ∈ (fill f delay none preload s).1.window,
        t.res = Except.ok (g t.spec) := by
      intro t ht
      rw [hwin] at ht
      rcases List.mem_append.mp ht with ht | ht
      · exact hok t ht
      · exact (mkTasks_mem f delay s.nextIdx s.upcoming t ht).1
    cases hw : (fill f delay none preload s).1.window with
    | nil =>
      have hp : pickTask Mode.completion (fill f delay none preload s).1.window = none := by
        rw [hw]; rfl
      rw [runGo_succ_none f delay none preload .completion r fuel s hp]
      rw [hw] at hwin
      simp [← hwin, sortTasks, sortTasksGo]
    | cons t ts =>
      have hp : pickTask Mode.completion (fill f delay none preload s).1.window
          = some ((extractMinDelay t ts).1, (extractMinDelay t ts).2) := by
        rw [hw]; rfl
      have hres : (extractMinDelay t ts).1.res
          = Except.ok (g (extractMinDelay t ts).1.spec) := by
        apply hallok
        rw [hw]
        exact extractMinDelay_fst_mem t ts
      rw [runGo_succ_ok f delay none preload .completion r fuel s
        (extractMinDelay t ts).1 (extractMinDelay t ts).2
        (g (extractMinDelay t ts).1.spec) hp hres]
      have htot := fill_total f delay none preload s
      have h2 : totalCount
          (⟨(fill f delay none preload s).1.upcoming,
            (fill f delay none preload s).1.pulledAhead,
            (fill f delay none preload s).1.nextIdx,
            (extractMinDelay t ts).2⟩ : MState α ε β) ≤ fuel := by
        simp only [totalCount] at htot h ⊢
        rw [hw] at htot
        simp only [List.length_cons] at htot
        rw [extractMinDelay_length]
        omega
      have hok2 : ∀ x ∈ (⟨(fill f delay none preload s).1.upcoming,
            (fill f delay none preload s).1.pulledAhead,
            (fill f delay none preload s).1.nextIdx,
            (extractMinDelay t ts).2⟩ : MState α ε β).window,
          x.res = Except.ok (g x.spec) := by
        intro x hx
        simp only at hx
        apply hallok
        rw [hw]
        exact extractMinDelay_snd_subset t ts x hx
      obtain ⟨ho1, ho2⟩ := ih _ h2 hok2
      refine ⟨?_, by simpa using ho2⟩
      simp only at ho1 ⊢
      rw [ho1, hup]
      simp only [mkTasks, List.append_nil]
      rw [← hwin, hw, sortTasks_cons]
      simp

/-! ### Reachable scheduler states -/

/-- The states the Scheduler passes through during a run: the initial
state, every state produced by `fill`, and every state produced by
consuming a Task picked by the active ordering mode (§4.3, §5). -/
inductive Reached (f : CallSpec α → Except ε β) (delay : Nat → Nat) (bound : Option Nat)
    (preload : Bool) (mode : Mode) : MState α ε β → Prop where
  | init (specs : List (CallSpec α)) :
      Reached f delay bound preload mode (initState specs)
  | fillStep (s : MState α ε β) : Reached f delay bound preload mode s →
      Reached f delay bound preload mode (fill f delay bound preload s).1
  | consumeStep (s : MState α ε β) (t : Task α ε β) (rest : List (Task α ε β)) :
      Reached f delay bound preload mode s →
      pickTask mode s.window = some (t, rest) →
      Reached f delay bound preload mode ⟨s.upcoming, s.pulledAhead, s.nextIdx, rest⟩

theorem reached_window_le (f : CallSpec α → Except ε β) (delay : Nat → Nat) (w : Nat)
    (preload : Bool) (mode : Mode) :
    ∀ s : MState α ε β, Reached f delay (some w) preload mode s → s.window.length ≤ w := by
  intro s h
  induction h with
  | init specs => simp [initState]
  | fillStep s hs ih => exact fill_window_le f delay w preload s ih
  | consumeStep s t rest hs hp ih =>
    have := pickTask_length hp
    simp only
    omega

/-! ### The look-ahead pull pattern (no engine, bounded window) -/

/-- Whether a trace event is an upstream pull. -/
def isPulledEv : Ev α → Bool
  | .pulled _ => true
  | .completed => false

/-- Trace of the steady phase of a bounded-window run: the head of
the remaining upstream is already pulled ahead; each iteration
dispatches it, pulls the following item (if any), and completes one
call; once upstream is exhausted the remaining window drains. -/
def steadyTail (w : Nat) : List (CallSpec α) → List (Ev α)
  | [] => List.replicate (w - 1) Ev.completed
  | _ :: rest =>
      (match rest with
       | [] => ([] : List (Ev α))
       | r :: _ => [Ev.pulled r]) ++ Ev.completed :: steadyTail w rest

/-- The full event trace of a bounded-window, submission-order run
over `specs` with window size `w`: `min (specs.length) (w+1)` pulls
up front, then one further pull after each completion while upstream
lasts, then the drain of the window. -/
def expectedTrace (w : Nat) (specs : List (CallSpec α)) : List (Ev α) :=
  if specs.length ≤ w then
    specs.map Ev.pulled ++ List.replicate specs.length Ev.completed
  else
    (specs.take (w + 1)).map Ev.pulled ++ Ev.completed :: steadyTail w (specs.drop w)

theorem fill_drain (f : CallSpec α → Except ε β) (delay : Nat → Nat) (w : Nat)
    (n : Nat) (win : List (Task α ε β)) :
    fill f delay (some w) true (⟨[], false, n, win⟩ : MState α ε β)
      = (⟨[], false, n, win⟩, []) := by
  simp [fill, room, mkTasks]

theorem fill_steady (f : CallSpec α → Except ε β) (delay : Nat → Nat) (w : Nat)
    (n : Nat) (c : CallSpec α) (up : List (CallSpec α)) (win : List (Task α ε β))
    (hw : win.length + 1 = w) :
    fill f delay (some w) true (⟨c :: up, true, n, win⟩ : MState α ε β)
      = (⟨up, !up.isEmpty, n + 1, win ++ [⟨c, f c, delay n⟩]⟩,
         (match up with
          | [] => ([] : List (Ev α))
          | r :: _ => [Ev.pulled r])) := by
  have hd : min (room (some w) win.length (c :: up).length) (c :: up).length = 1 := by
    simp only [room, List.length_cons]
    omega
  simp only [fill, hd]
  match up with
  | [] => simp [mkTasks]
  | r :: up2 => simp [mkTasks]

theorem fill_start_small (f : CallSpec α → Except ε β) (delay : Nat → Nat) (w : Nat)
    (specs : List (CallSpec α)) (h : specs.length ≤ w) :
    fill f delay (some w) true (initState specs)
      = (⟨[], false, specs.length, mkTasks f delay 0 specs⟩, specs.map Ev.pulled) := by
  simp only [initState, fill, List.length_nil]
  have hd : min (room (some w) 0 specs.length) specs.length = specs.length := by
    simp only [room]
    omega
  rw [hd]
  simp [List.take_length, List.drop_length]

theorem fill_start_big (f : CallSpec α → Except ε β) (delay : Nat → Nat) (w : Nat)
    (specs : List (CallSpec α)) (h : w < specs.length) :
    fill f delay (some w) true (initState specs)
      = (⟨specs.drop w, true, w, mkTasks f delay 0 (specs.take w)⟩,
         (specs.take (w + 1)).map Ev.pulled) := by
  simp only [initState, fill, List.length_nil]
  have hd : min (room (some w) 0 specs.length) specs.length = w := by
    simp only [room]
    omega
  rw [hd]
  have hne : (specs.drop w).isEmpty = false := by
    rw [List.isEmpty_eq_false_iff_exists_mem]
    have hnil : specs.drop w ≠ [] := by
      simp only [ne_eq, List.drop_eq_nil_iff]
      omega
    exact List.exists_mem_of_ne_nil _ hnil
  simp only [hne, Bool.not_false, Bool.and_true, Bool.true_or, Bool.and_self]
  have htake : specs.take (w + 1) = specs.take w ++ (specs.drop w).take 1 := by
    rw [List.take_add]
  rw [htake]
  simp

theorem runGo_drain_trace (g : CallSpec α → β) (delay : Nat → Nat) (w : Nat) (r : β → γ) :
    ∀ (fuel n : Nat) (win : List (Task α ε β)), win.length ≤ fuel →
      (∀ t ∈ win, ∃ b, t.res = Except.ok b) →
      (runGo (fun c => Except.ok (g c)) delay (some w) true .submission r fuel
        (⟨[], false, n, win⟩ : MState α ε β)).2.2.1
        = List.replicate win.length Ev.completed := by
  intro fuel
  induction fuel with
  | zero =>
    intro n win h hok
    have hnil : win = [] := List.length_eq_zero.mp (Nat.le_zero.mp h)
    subst hnil
    rw [runGo_zero]
    rfl
  | succ fuel ih =>
    intro n win h hok
    have hfill := fill_drain (fun c => Except.ok (g c) : CallSpec α → Except ε β) delay w n win
    cases win with
    | nil =>
      have hp : pickTask Mode.submission
          (fill (fun c => Except.ok (g c)) delay (some w) true
            (⟨[], false, n, []⟩ : MState α ε β)).1.window = none := by
        rw [hfill]
        rfl
      rw [runGo_succ_none _ _ _ _ _ _ _ _ hp, hfill]
      rfl
    | cons t ts =>
      obtain ⟨b, hb⟩ := hok t (List.mem_cons_self t ts)
      have hp : pickTask Mode.submission
          (fill (fun c => Except.ok (g c)) delay (some w) true
            (⟨[], false, n, t :: ts⟩ : MState α ε β)).1.window = some (t, ts) := by
        rw [hfill]
        rfl
      rw [runGo_succ_ok _ _ _ _ _ _ fuel _ t ts b hp hb]
      simp only [hfill]
      simp only [List.length_cons] at h
      rw [ih n ts (by omega) (fun x hx => hok x (List.mem_cons_of_mem t hx))]
      simp [List.replicate_succ]

theorem runGo_steady_trace (g : CallSpec α → β) (delay : Nat → Nat) (w : Nat)
    (r : β → γ) (hw1 : 1 ≤ w) :
    ∀ (up : List (CallSpec α)) (fuel n : Nat) (win : List (Task α ε β)) (pa : Bool),
      pa = !up.isEmpty → win.length + 1 = w → up.length + win.length ≤ fuel →
      (∀ t ∈ win, ∃ b, t.res = Except.ok b) →
      (runGo (fun c => Except.ok (g c)) delay (some w) true .submission r fuel
        (⟨up, pa, n, win⟩ : MState α ε β)).2.2.1
        = steadyTail w up := by
  intro up
  induction up with
  | nil =>
    intro fuel n win pa hpa hwlen hfuel hok
    have hpa2 : pa = false := by simp [hpa]
    subst hpa2
    rw [runGo_drain_trace g delay w r fuel n win (by omega) hok]
    rw [steadyTail]
    congr 1
    omega
  | cons c rest ih =>
    intro fuel n win pa hpa hwlen hfuel hok
    have hpa2 : pa = true := by simp [hpa]
    subst hpa2
    match fuel with
    | 0 => simp only [List.length_cons] at hfuel; omega
    | fuel + 1 =>
      have hfill := fill_steady (fun c => Except.ok (g c) : CallSpec α → Except ε β)
        delay w n c rest win hwlen
      cases win with
      | nil =>
        -- window fills to the single dispatched task
        have hp : pickTask Mode.submission
            (fill (fun c => Except.ok (g c)) delay (some w) true
              (⟨c :: rest, true, n, []⟩ : MState α ε β)).1.window
            = some (⟨c, Except.ok (g c), delay n⟩, []) := by
          rw [hfill]
          rfl
        rw [runGo_succ_ok _ _ _ _ _ _ fuel _ _ _ (g c) hp rfl]
        simp only [hfill]
        simp only [List.length_cons, List.length_nil] at hfuel hwlen
        rw [ih fuel (n + 1) [] (!rest.isEmpty) rfl
          (by simp only [List.length_nil]; omega)
          (by simp only [List.length_nil]; omega) (by simp)]
        rfl
      | cons t ts =>
        obtain ⟨b, hb⟩ := hok t (List.mem_cons_self t ts)
        have hp : pickTask Mode.submission
            (fill (fun c => Except.ok (g c)) delay (some w) true
              (⟨c :: rest, true, n, t :: ts⟩ : MState α ε β)).1.window
            = some (t, ts ++ [⟨c, Except.ok (g c), delay n⟩]) := by
          rw [hfill]
          rfl
        rw [runGo_succ_ok _ _ _ _ _ _ fuel _ _ _ b hp hb]
        simp only [hfill]
        simp only [List.length_cons] at hfuel hwlen
        have hok2 : ∀ x ∈ ts ++ [(⟨c, Except.ok (g c), delay n⟩ : Task α ε β)],
            ∃ v, x.res = Except.ok v := by
          intro x hx
          rcases List.mem_append.mp hx with hx | hx
          · exact hok x (List.mem_cons_of_mem t hx)
          · rcases List.mem_singleton.mp hx with hx
            subst hx
            exact ⟨g c, rfl⟩
        have h1 : (ts ++ [(⟨c, Except.ok (g c), delay n⟩ : Task α ε β)]).length + 1 = w := by
          simp only [List.length_append, List.length_cons, List.length_nil]
          omega
        have h2 : rest.length
            + (ts ++ [(⟨c, Except.ok (g c), delay n⟩ : Task α ε β)]).length ≤ fuel := by
          simp only [List.length_append, List.length_cons, List.length_nil]
          omega
        have hih := ih fuel (n + 1) (ts ++ [(⟨c, Except.ok (g c), delay n⟩ : Task α ε β)])
          (!rest.isEmpty) rfl h1 h2 hok2
        rw [hih]
        rfl

theorem runMap_trace (g : CallSpec α → β) (delay : Nat → Nat) (w : Nat) (r : β → γ)
    (hw1 : 1 ≤ w) (specs : List (CallSpec α)) :
    (runMap (fun c => Except.ok (g c) : CallSpec α → Except ε β) delay (some w) true
      Mode.submission r (initState specs)).2.2.1 = expectedTrace w specs := by
  rw [runMap]
  have hfuel : totalCount (initState specs : MState α ε β) = specs.length := by
    simp [totalCount, initState]
  rw [hfuel]
  rcases le_or_lt specs.length w with hc | hc
  · rw [expectedTrace, if_pos hc]
    cases specs with
    | nil =>
      show (runGo _ _ _ _ _ _ 0 _).2.2.1 = _
      rw [runGo_zero]
      rfl
    | cons c cs =>
      have hlen : (c :: cs).length = cs.length + 1 := rfl
      rw [hlen]
      have hfill := fill_start_small (fun c => Except.ok (g c) : CallSpec α → Except ε β)
        delay w (c :: cs) hc
      have hp : pickTask Mode.submission
          ((fill (fun c => Except.ok (g c) : CallSpec α → Except ε β) delay (some w) true
            (initState (c :: cs))).1).window
          = some (⟨c, Except.ok (g c), delay 0⟩,
                  mkTasks (fun c => Except.ok (g c)) delay 1 cs) := by
        rw [hfill]
        rfl
      rw [runGo_succ_ok _ _ _ _ _ _ cs.length _ _ _ (g c) hp rfl]
      simp only [hfill]
      have hok : ∀ t ∈ mkTasks (fun c => Except.ok (g c) : CallSpec α → Except ε β) delay 1 cs,
          ∃ b, t.res = Except.ok b := by
        intro t ht
        exact ⟨g t.spec, (mkTasks_mem _ delay 1 cs t ht).1⟩
      have hlen2 := mkTasks_length (fun c => Except.ok (g c) : CallSpec α → Except ε β) delay 1 cs
      rw [runGo_drain_trace g delay w r cs.length _ _ (by simp [hlen2]) hok]
      rw [hlen2]
      simp [List.replicate_succ]
  · rw [expectedTrace, if_neg (by omega)]
    obtain ⟨w2, rfl⟩ : ∃ w2, w = w2 + 1 := ⟨w - 1, by omega⟩
    cases specs with
    | nil => simp at hc
    | cons c cs =>
      have hlen : (c :: cs).length = cs.length + 1 := rfl
      rw [hlen]
      have hfill := fill_start_big (fun c => Except.ok (g c) : CallSpec α → Except ε β)
        delay (w2 + 1) (c :: cs) hc
      simp only [List.length_cons] at hc
      have htake : (c :: cs).take (w2 + 1) = c :: cs.take w2 := by
        rw [List.take_succ_cons]
      have hp : pickTask Mode.submission
          ((fill (fun c => Except.ok (g c) : CallSpec α → Except ε β) delay (some (w2 + 1)) true
            (initState (c :: cs))).1).window
          = some (⟨c, Except.ok (g c), delay 0⟩,
                  mkTasks (fun c => Except.ok (g c)) delay 1 (cs.take w2)) := by
        rw [hfill, htake]
        rfl
      rw [runGo_succ_ok _ _ _ _ _ _ cs.length _ _ _ (g c) hp rfl]
      simp only [hfill]
      have hok : ∀ t ∈ mkTasks (fun c => Except.ok (g c) : CallSpec α → Except ε β) delay 1
          (cs.take w2), ∃ b, t.res = Except.ok b := by
        intro t ht
        exact ⟨g t.spec, (mkTasks_mem _ delay 1 (cs.take w2) t ht).1⟩
      have hlen2 := mkTasks_length (fun c => Except.ok (g c) : CallSpec α → Except ε β) delay 1
        (cs.take w2)
      have htklen : (cs.take w2).length = w2 := by
        simp only [List.length_take]
        omega
      have hpa : (true : Bool) = !((c :: cs).drop (w2 + 1)).isEmpty := by
        have hne2 : (c :: cs).drop (w2 + 1) ≠ [] := by
          simp only [ne_eq, List.drop_eq_nil_iff, List.length_cons]
          omega
        have hdne : ((c :: cs).drop (w2 + 1)).isEmpty = false :=
          List.isEmpty_eq_false_iff_exists_mem.mpr (List.exists_mem_of_ne_nil _ hne2)
        rw [hdne]
        rfl
      have hwin : (mkTasks (fun c => Except.ok (g c) : CallSpec α → Except ε β) delay 1
          (cs.take w2)).length + 1 = w2 + 1 := by
        rw [hlen2, htklen]
      have hdl : ((c :: cs).drop (w2 + 1)).length = cs.length - w2 := by
        rw [List.length_drop]
        simp only [List.length_cons]
        omega
      have hfgo : ((c :: cs).drop (w2 + 1)).length
          + (mkTasks (fun c => Except.ok (g c) : CallSpec α → Except ε β) delay 1
              (cs.take w2)).length ≤ cs.length := by
        rw [hlen2, htklen, hdl]
        omega
      have hst := runGo_steady_trace g delay (w2 + 1) r hw1 ((c :: cs).drop (w2 + 1))
        cs.length (w2 + 1)
        (mkTasks (fun c => Except.ok (g c)) delay 1 (cs.take w2)) true hpa hwin hfgo hok
      rw [hst]

/-! ### Pull counting over the expected trace -/

theorem takeWhile_pulled_map (l : List (CallSpec α)) (rest : List (Ev α)) :
    (l.map Ev.pulled ++ Ev.completed :: rest).takeWhile isPulledEv = l.map Ev.pulled := by
  induction l with
  | nil => simp [List.takeWhile_cons, isPulledEv]
  | cons c cs ih => simp [List.takeWhile_cons, isPulledEv, ih]

theorem expectedTrace_pullsBefore (w : Nat) (specs : List (CallSpec α)) :
    ((expectedTrace w specs).takeWhile isPulledEv).length
      = min specs.length (w + 1) := by
  rw [expectedTrace]
  rcases le_or_lt specs.length w with hc | hc
  · rw [if_pos hc]
    cases specs with
    | nil => simp
    | cons c cs =>
      have hrep : List.replicate (c :: cs).length (Ev.completed : Ev α)
          = Ev.completed :: List.replicate cs.length Ev.completed := by
        simp [List.replicate_succ]
      rw [hrep, takeWhile_pulled_map]
      simp only [List.length_map, List.length_cons]
      simp only [List.length_cons] at hc
      omega
  · rw [if_neg (by omega)]
    rw [takeWhile_pulled_map]
    simp only [List.length_map, List.length_take]
    omega

theorem countPulled_le_length (evs : List (Ev α)) : countPulled evs ≤ evs.length := by
  induction evs with
  | nil => simp [countPulled]
  | cons e es ih =>
    match e with
    | .completed => simp only [countPulled, List.length_cons]; omega
    | .pulled c => simp only [countPulled, List.length_cons]; omega

theorem countPulled_take_replicate (m n : Nat) :
    countPulled ((List.replicate m (Ev.completed : Ev α)).take n) = 0 := by
  induction m generalizing n with
  | zero => simp [countPulled]
  | succ m ih =>
    match n with
    | 0 => simp [countPulled]
    | n + 1 =>
      rw [List.replicate_succ, List.take_succ_cons]
      simp only [countPulled]
      exact ih n

theorem steadyTail_prefix (w : Nat) :
    ∀ (up : List (CallSpec α)) (n : Nat),
      countPulled ((steadyTail w up).take n)
        ≤ countCompleted ((steadyTail w up).take n) + 1 := by
  intro up
  induction up with
  | nil =>
    intro n
    show countPulled ((List.replicate (w - 1) Ev.completed).take n) ≤ _
    rw [countPulled_take_replicate]
    omega
  | cons c rest ih =>
    intro n
    cases rest with
    | nil =>
      show countPulled ((Ev.completed :: List.replicate (w - 1) Ev.completed).take n) ≤ _
      match n with
      | 0 => simp [countPulled, countCompleted]
      | n + 1 =>
        rw [List.take_succ_cons]
        simp only [countPulled, countCompleted]
        rw [countPulled_take_replicate]
        omega
    | cons r rest2 =>
      show countPulled ((Ev.pulled r :: Ev.completed :: steadyTail w (r :: rest2)).take n) ≤ _
      match n with
      | 0 => simp [countPulled, countCompleted]
      | 1 => simp [countPulled, countCompleted]
      | n + 2 =>
        rw [List.take_succ_cons, List.take_succ_cons]
        simp only [countPulled, countCompleted]
        have := ih n
        omega

theorem countPulled_map_pulled_take (l : List (CallSpec α)) (n : Nat) :
    countPulled ((l.map Ev.pulled).take n) ≤ l.length := by
  calc countPulled ((l.map Ev.pulled).take n)
      ≤ ((l.map Ev.pulled).take n).length := countPulled_le_length _
    _ ≤ (l.map Ev.pulled).length := by simp [List.length_take]
    _ = l.length := by simp

theorem expectedTrace_prefix (w : Nat) (specs : List (CallSpec α)) (n : Nat) :
    countPulled ((expectedTrace w specs).take n)
      ≤ countCompleted ((expectedTrace w specs).take n) + min specs.length (w + 1) := by
  rw [expectedTrace]
  rcases le_or_lt specs.length w with hc | hc
  · rw [if_pos hc]
    rw [List.take_append_eq_append_take, countPulled_append]
    have h1 := countPulled_map_pulled_take specs n
    have h2 : countPulled ((List.replicate specs.length (Ev.completed : Ev α)).take
        (n - (specs.map Ev.pulled).length)) = 0 := countPulled_take_replicate _ _
    rw [h2]
    omega
  · rw [if_neg (by omega)]
    rw [List.take_append_eq_append_take, countPulled_append, countCompleted_append]
    have h1 := countPulled_map_pulled_take (specs.take (w + 1)) n
    simp only [List.length_take] at h1
    have hmin : min specs.length (w + 1) = w + 1 := by omega
    rw [hmin]
    match hn : n - ((specs.take (w + 1)).map Ev.pulled).length with
    | 0 =>
      simp only [List.take_zero, countPulled, countCompleted]
      omega
    | m + 1 =>
      rw [List.take_succ_cons]
      simp only [countPulled, countCompleted]
      have h3 := steadyTail_prefix w (specs.drop w) m
      omega

/-! ### Sequencing pure and failing call streams -/

theorem collectResults_map_ok (r : β → γ) (g : CallSpec α → β) (cs : List (CallSpec α)) :
    collectResults r (cs.map (fun c => (Except.ok (g c) : Except ε β)))
      = (cs.map (fun c => r (g c)), none) := by
  induction cs with
  | nil => rfl
  | cons c cs ih => simp [collectResults, ih]

theorem collectResults_prefix_error (r : β → γ) (f : CallSpec α → Except ε β)
    (v : CallSpec α → β) (pre : List (CallSpec α)) (cfail : CallSpec α)
    (post : List (CallSpec α)) (e : ε)
    (hpre : ∀ c ∈ pre, f c = Except.ok (v c)) (hf : f cfail = Except.error e) :
    collectResults r ((pre ++ cfail :: post).map f)
      = (pre.map (fun c => r (v c)), some e) := by
  induction pre with
  | nil => simp [collectResults, hf]
  | cons c cs ih =>
    have hc : f c = Except.ok (v c) := hpre c (List.mem_cons_self c cs)
    simp only [List.cons_append, List.map_cons, hc, collectResults]
    rw [ih (fun x hx => hpre x (List.mem_cons_of_mem c hx))]

/-- Submission-order runs of the public operation deliver exactly the
sequentially collected results of the batched call stream, whatever
the engine, window and timing configuration. -/
theorem fmapRun_submission_eq (f : CallSpec α → Except ε β) (r : β → γ) (k : Nat)
    (engine : Bool) (numPrepare : Option Nat) (delay : Nat → Nat) (inp : Inputs α)
    (hb : boundOK (windowBound engine numPrepare)) :
    ((fmapRun f r k engine numPrepare false delay inp).1,
     (fmapRun f r k engine numPrepare false delay inp).2.1)
      = collectResults r ((batcherOut k (callSpecs inp)).map f) := by
  have h := runGo_submission f delay (windowBound engine numPrepare) numPrepare.isSome r hb
    (totalCount (initState (batcherOut k (callSpecs inp)) : MState α ε β))
    (initState (batcherOut k (callSpecs inp))) le_rfl
  have hpend : pendingResults f (initState (batcherOut k (callSpecs inp)) : MState α ε β)
      = (batcherOut k (callSpecs inp)).map f := by
    simp [pendingResults, initState]
  rw [hpend] at h
  exact h

/-! ### The public call interface -/

/-- The keyword-argument names through which the repository's test
suite invokes the public operation (`tests/test_fluentmap.py` passes
`batch_size=`, `on_return=`, `executor=`, `num_prepare=` and
`sort_by_completion=` to `fluentmap.map`); a keyword call only
succeeds when the callee has a parameter of that name. -/
def fmapCallKeywords : List String :=
  ["batch_size", "on_return", "executor", "num_prepare", "sort_by_completion"]

/-- Modelled from the spec: the optional keyword parameter names in
the public signature as the spec writes it (§6):
`map(function, *input_sequences, batch_size=1, on_return=identity,
engine=None, num_prepare=None, sort_by_completion=False)`. -/
def specSignatureKeywords : List String :=
  ["batch_size", "on_return", "engine", "num_prepare", "sort_by_completion"]

/-! ### Generic consumption lemmas -/

theorem pickTask_mem {mode : Mode} {l rest : List (Task α ε β)} {t : Task α ε β}
    (h : pickTask mode l = some (t, rest)) : t ∈ l := by
  match mode, l with
  | .submission, [] => simp [pickTask] at h
  | .completion, [] => simp [pickTask] at h
  | .submission, u :: us =>
    simp only [pickTask, Option.some.injEq, Prod.mk.injEq] at h
    rw [← h.1]
    exact List.mem_cons_self u us
  | .completion, u :: us =>
    simp only [pickTask, Option.some.injEq] at h
    have h2 := congrArg Prod.fst h
    simp only at h2
    rw [← h2]
    exact extractMinDelay_fst_mem u us

theorem pickTask_rest_subset {mode : Mode} {l rest : List (Task α ε β)} {t : Task α ε β}
    (h : pickTask mode l = some (t, rest)) : ∀ x ∈ rest, x ∈ l := by
  match mode, l with
  | .submission, [] => simp [pickTask] at h
  | .completion, [] => simp [pickTask] at h
  | .submission, u :: us =>
    simp only [pickTask, Option.some.injEq, Prod.mk.injEq] at h
    intro x hx
    rw [← h.2] at hx
    exact List.mem_cons_of_mem u hx
  | .completion, u :: us =>
    simp only [pickTask, Option.some.injEq] at h
    have h2 := congrArg Prod.snd h
    simp only at h2
    intro x hx
    rw [← h2] at hx
    exact extractMinDelay_snd_subset u us x hx

/-- Any error surfaced by the sequencer, in any ordering mode and
under any window bound, is the captured exception of one of the
dispatched or not-yet-dispatched calls — never invented, altered or
retried. -/
theorem runGo_error_from_call (f : CallSpec α → Except ε β) (delay : Nat → Nat)
    (bound : Option Nat) (preload : Bool) (mode : Mode) (r : β → γ) :
    ∀ (fuel : Nat) (s : MState α ε β) (e2 : ε),
      (runGo f delay bound preload mode r fuel s).2.1 = some e2 →
      (∃ t ∈ s.window, t.res = Except.error e2)
        ∨ (∃ c ∈ s.upcoming, f c = Except.error e2) := by
  intro fuel
  induction fuel with
  | zero =>
    intro s e2 h
    simp [runGo_zero] at h
  | succ fuel ih =>
    intro s e2 h
    have htrans : ∀ u : Task α ε β, u ∈ (fill f delay bound preload s).1.window →
        u.res = Except.error e2 →
        (∃ t ∈ s.window, t.res = Except.error e2)
          ∨ (∃ c ∈ s.upcoming, f c = Except.error e2) := by
      intro u hu hres
      rw [fill_window] at hu
      rcases List.mem_append.mp hu with hu | hu
      · exact Or.inl ⟨u, hu, hres⟩
      · obtain ⟨h1, h2⟩ := mkTasks_mem f delay _ _ u hu
        refine Or.inr ⟨u.spec, List.take_subset _ _ h2, ?_⟩
        rw [← h1]
        exact hres
    cases hp : pickTask mode (fill f delay bound preload s).1.window with
    | none =>
      rw [runGo_succ_none f delay bound preload mode r fuel s hp] at h
      simp at h
    | some pr =>
      match pr with
      | (t, rest) =>
        cases hr : t.res with
        | error e3 =>
          rw [runGo_succ_error f delay bound preload mode r fuel s t rest e3 hp hr] at h
          simp only [Option.some.injEq] at h
          subst h
          exact htrans t (pickTask_mem hp) hr
        | ok b =>
          rw [runGo_succ_ok f delay bound preload mode r fuel s t rest b hp hr] at h
          simp only at h
          rcases ih ⟨(fill f delay bound preload s).1.upcoming,
              (fill f delay bound preload s).1.pulledAhead,
              (fill f delay bound preload s).1.nextIdx, rest⟩ e2 h with
            ⟨u, hu, hres⟩ | ⟨c, hc, hfc⟩
          · exact htrans u (pickTask_rest_subset hp u hu) hres
          · right
            refine ⟨c, ?_, hfc⟩
            simp only at hc
            rw [fill_upcoming] at hc
            exact List.drop_subset _ _ hc

/-- Completion-order master theorem: with an unbounded (engine,
`num_prepare` unset) window, the completion-order run delivers the
values and the first captured error of the dispatched Tasks in the
order of their completion delays — the sequential collection of the
delay-sorted task stream. -/
theorem runGo_completion_collect (f : CallSpec α → Except ε β) (delay : Nat → Nat)
    (preload : Bool) (r : β → γ) :
    ∀ (fuel : Nat) (s : MState α ε β), totalCount s ≤ fuel →
      (runGo f delay none preload .completion r fuel s).1
          = (collectResults r
              ((sortTasks (s.window ++ mkTasks f delay s.nextIdx s.upcoming)).map
                Task.res)).1
        ∧ (runGo f delay none preload .completion r fuel s).2.1
          = (collectResults r
              ((sortTasks (s.window ++ mkTasks f delay s.nextIdx s.upcoming)).map
                Task.res)).2 := by
  intro fuel
  induction fuel with
  | zero =>
    intro s h
    simp only [totalCount, Nat.le_zero, Nat.add_eq_zero] at h
    have h1 : s.upcoming = [] := List.length_eq_zero.mp h.1
    have h2 : s.window = [] := List.length_eq_zero.mp h.2
    rw [runGo_zero]
    simp [h1, h2, mkTasks, sortTasks, sortTasksGo, collectResults]
  | succ fuel ih =>
    intro s h
    obtain ⟨hwin, hup⟩ := fill_none_window f delay preload s
    cases hw : (fill f delay none preload s).1.window with
    | nil =>
      have hp : pickTask Mode.completion (fill f delay none preload s).1.window = none := by
        rw [hw]
        rfl
      rw [runGo_succ_none f delay none preload .completion r fuel s hp]
      rw [hw] at hwin
      simp [← hwin, sortTasks, sortTasksGo, collectResults]
    | cons t ts =>
      have hp : pickTask Mode.completion (fill f delay none preload s).1.window
          = some ((extractMinDelay t ts).1, (extractMinDelay t ts).2) := by
        rw [hw]
        rfl
      have htot := fill_total f delay none preload s
      have h2 : totalCount
          (⟨(fill f delay none preload s).1.upcoming,
            (fill f delay none preload s).1.pulledAhead,
            (fill f delay none preload s).1.nextIdx,
            (extractMinDelay t ts).2⟩ : MState α ε β) ≤ fuel := by
        simp only [totalCount] at htot h ⊢
        rw [hw] at htot
        simp only [List.length_cons] at htot
        rw [extractMinDelay_length]
        omega
      cases hm : (extractMinDelay t ts).1.res with
      | error e =>
        rw [runGo_succ_error f delay none preload .completion r fuel s
          (extractMinDelay t ts).1 (extractMinDelay t ts).2 e hp hm]
        rw [← hwin, hw, sortTasks_cons]
        simp [collectResults, hm]
      | ok b =>
        rw [runGo_succ_ok f delay none preload .completion r fuel s
          (extractMinDelay t ts).1 (extractMinDelay t ts).2 b hp hm]
        obtain ⟨ho1, ho2⟩ := ih _ h2
        simp only at ho1 ho2
        have hsimp : sortTasks ((extractMinDelay t ts).2
              ++ mkTasks f delay (fill f delay none preload s).1.nextIdx
                  (fill f delay none preload s).1.upcoming)
            = sortTasks (extractMinDelay t ts).2 := by
          rw [hup]
          simp [mkTasks]
        rw [hsimp] at ho1 ho2
        rw [← hwin, hw, sortTasks_cons]
        constructor
        · simp only [List.map_cons, hm, collectResults]
          rw [ho1]
        · simp only [List.map_cons, hm, collectResults]
          rw [ho2]

/-- The values a sequence of call results delivers before its first
captured error, untransformed. -/
def collectVals : List (Except ε β) → List β
  | [] => []
  | .error _ :: _ => []
  | .ok b :: es => b :: collectVals es

theorem collectResults_fst (r : β → γ) (es : List (Except ε β)) :
    (collectResults r es).1 = (collectVals es).map r := by
  induction es with
  | nil => rfl
  | cons x es ih =>
    match x with
    | .error e => rfl
    | .ok b => simp [collectResults, collectVals, ih]

/-- The on_return transform never influences scheduling: under every
mode, bound and timing, the run with transform `r` yields exactly the
`r`-image of the run with the identity transform. -/
theorem runGo_on_return (f : CallSpec α → Except ε β) (delay : Nat → Nat)
    (bound : Option Nat) (preload : Bool) (mode : Mode) (r : β → γ) :
    ∀ (fuel : Nat) (s : MState α ε β),
      (runGo f delay bound preload mode r fuel s).1
        = ((runGo f delay bound preload mode (fun b => b) fuel s).1).map r := by
  intro fuel
  induction fuel with
  | zero =>
    intro s
    simp [runGo_zero]
  | succ fuel ih =>
    intro s
    cases hp : pickTask mode (fill f delay bound preload s).1.window with
    | none =>
      rw [runGo_succ_none f delay bound preload mode r fuel s hp,
          runGo_succ_none f delay bound preload mode (fun b => b) fuel s hp]
      rfl
    | some pr =>
      match pr with
      | (t, rest) =>
        cases hr : t.res with
        | error e =>
          rw [runGo_succ_error f delay bound preload mode r fuel s t rest e hp hr,
              runGo_succ_error f delay bound preload mode (fun b => b) fuel s t rest e hp hr]
          rfl
        | ok b =>
          rw [runGo_succ_ok f delay bound preload mode r fuel s t rest b hp hr,
              runGo_succ_ok f delay bound preload mode (fun b => b) fuel s t rest b hp hr]
          simp only [List.map_cons]
          rw [ih]

/-! ### The claims -/

/-- C1: for every function and every collection of one or more input
sequences, calling map with batch_size ≤ 1, no engine and num_prepare
unset yields exactly the classic element-wise map over the zipped
inputs — the function applied to each row, stopping as soon as any
one input sequence is exhausted, so the output length equals the
shortest input's length. -/
theorem claim_C1 (k : Nat) (hk : k ≤ 1) :
    (∀ (f : CallSpec α → Except ε β) (r : β → γ) (delay : Nat → Nat) (inp : Inputs α),
      ((fmapRun f r k false none false delay inp).1,
       (fmapRun f r k false none false delay inp).2.1)
        = collectResults r ((callSpecs inp).map f))
  ∧ (∀ (g : CallSpec α → β) (r : β → γ) (delay : Nat → Nat) (inp : Inputs α),
      (fmapRun (fun c => (Except.ok (g c) : Except ε β)) r k false none false delay inp).1
        = (callSpecs inp).map (fun c => r (g c)))
  ∧ (∀ (s1 s2 : List (PyVal α)) (rest : List (List (PyVal α))),
      (callSpecs (Inputs.multi s1 s2 rest)).length
        = List.foldr (fun (l : List (PyVal α)) m => min l.length m) s1.length (s2 :: rest))
  ∧ (∀ (s1 s2 : List (PyVal α)),
      zipAllGo s1 [s2] = List.zipWith (fun a b => [a, b]) s1 s2) := by
  have hbatch : ∀ specs : List (CallSpec α), batcherOut k specs = specs := by
    intro specs
    rw [batcherOut, if_pos hk]
  refine ⟨?_, ?_, ?_, ?_⟩
  · intro f r delay inp
    have h := fmapRun_submission_eq f r k false none delay inp
      (le_refl 1 : boundOK (windowBound false none))
    rw [hbatch] at h
    exact h
  · intro g r delay inp
    have h := fmapRun_submission_eq (fun c => (Except.ok (g c) : Except ε β)) r k false none
      delay inp (le_refl 1 : boundOK (windowBound false none))
    rw [hbatch, collectResults_map_ok] at h
    exact congrArg Prod.fst h
  · intro s1 s2 rest
    simp only [callSpecs, List.length_map]
    exact zipAllGo_length s1 (s2 :: rest)
  · intro s1 s2
    exact zipAllGo_pair s1 s2

/-- C1 witness: a concrete two-element single-sequence run with
batch_size 1 yields exactly the element-wise map. -/
theorem claim_C1_witness :
    (fmapRun (fun c => (Except.ok c.args : Except Unit (List (PyVal Nat))))
      (fun l => l) 1 false none false (fun i => i)
      (Inputs.single [Row.plain (PyVal.base 3), Row.plain (PyVal.base 4)])).1
      = [[PyVal.base 3], [PyVal.base 4]] := by
  have h : (fmapRun (fun c => (Except.ok c.args : Except Unit (List (PyVal Nat))))
      (fun l => l) 1 false none false (fun i => i)
      (Inputs.single [Row.plain (PyVal.base 3), Row.plain (PyVal.base 4)])).1
      = (callSpecs (Inputs.single [Row.plain (PyVal.base 3), Row.plain (PyVal.base 4)])).map
          (fun c => (fun l => l) ((fun c => c.args) c)) :=
    (claim_C1 1 (le_refl 1)).2.1 (fun c => c.args) (fun l => l) (fun i => i)
      (Inputs.single [Row.plain (PyVal.base 3), Row.plain (PyVal.base 4)])
  rw [h]
  rfl

/-- C4: for every input of N rows and batch_size k ≥ 2, map yields
exactly ceil(N/k) elements; the i-th yielded element is the function's
result on the i-th group of up to k consecutive rows in input order;
the last group has length N mod k (or k when k divides N) and is still
emitted; batching never reorders rows and never drops a trailing
partial group. -/
theorem claim_C4 (k : Nat) (hk : 2 ≤ k) (g : CallSpec α → β) (r : β → γ)
    (engine : Bool) (numPrepare : Option Nat) (delay : Nat → Nat) (inp : Inputs α)
    (hb : boundOK (windowBound engine numPrepare)) :
    (fmapRun (fun c => (Except.ok (g c) : Except ε β)) r k engine numPrepare false delay
        inp).1
      = (chunkList k (callSpecs inp)).map (fun grp => r (g (mkBatch grp)))
  ∧ (chunkList k (callSpecs inp)).length = ((callSpecs inp).length + k - 1) / k
  ∧ (chunkList k (callSpecs inp)).flatten = callSpecs inp
  ∧ (∀ grp ∈ chunkList k (callSpecs inp), grp ≠ [] ∧ grp.length ≤ k)
  ∧ (callSpecs inp ≠ [] →
      (chunkList k (callSpecs inp)).getLast?.map List.length
        = some (if (callSpecs inp).length % k = 0 then k
                else (callSpecs inp).length % k)) := by
  have hk1 : 1 ≤ k := by omega
  refine ⟨?_, chunkList_length k hk1 _, chunkList_flatten k hk1 _,
    chunkList_mem_length k hk1 _, chunkList_getLast k hk1 _⟩
  have h := fmapRun_submission_eq (fun c => (Except.ok (g c) : Except ε β)) r k engine
    numPrepare delay inp hb
  rw [batcherOut, if_neg (by omega), collectResults_map_ok] at h
  have h1 := congrArg Prod.fst h
  simp only at h1
  rw [h1, List.map_map]
  rfl

/-- C4 witness: seven rows with batch_size 3 yield the three batches
of the test suite, the last one partial. -/
theorem claim_C4_witness :
    (fmapRun (fun c => (Except.ok c.args : Except Unit (List (PyVal Nat))))
      (fun l => l) 3 false none false (fun i => i)
      (Inputs.single ((List.range 7).map (fun i => Row.plain (PyVal.base i))))).1
      = [[PyVal.seq [PyVal.base 0, PyVal.base 1, PyVal.base 2]],
         [PyVal.seq [PyVal.base 3, PyVal.base 4, PyVal.base 5]],
         [PyVal.seq [PyVal.base 6]]] := by
  have h : (fmapRun (fun c => (Except.ok c.args : Except Unit (List (PyVal Nat))))
      (fun l => l) 3 false none false (fun i => i)
      (Inputs.single ((List.range 7).map (fun i => Row.plain (PyVal.base i))))).1
      = (chunkList 3 (callSpecs
          (Inputs.single ((List.range 7).map (fun i => Row.plain (PyVal.base i)))))).map
          (fun grp => (fun l => l) ((fun c => c.args) (mkBatch grp))) :=
    (claim_C4 3 (by omega) (fun c => c.args) (fun l => l) false none (fun i => i)
      (Inputs.single ((List.range 7).map (fun i => Row.plain (PyVal.base i))))
      (le_refl 1 : boundOK (windowBound false none))).1
  rw [h]
  rfl

/-- C5: with sort_by_completion left False and an engine supplied, the
output order equals the input order regardless of the completion
timing of the individual calls — for every delay assignment (including
1024 random ones) the yielded sequence is exactly the transformed
batched call stream in submission order, with no element duplicated,
lost or reordered, and no error. -/
theorem claim_C5 (g : CallSpec α → β) (r : β → γ) (k : Nat) (numPrepare : Option Nat)
    (delay : Nat → Nat) (inp : Inputs α) (hb : boundOK (windowBound true numPrepare)) :
    (fmapRun (fun c => (Except.ok (g c) : Except ε β)) r k true numPrepare false delay
        inp).1
      = (batcherOut k (callSpecs inp)).map (fun c => r (g c))
  ∧ (fmapRun (fun c => (Except.ok (g c) : Except ε β)) r k true numPrepare false delay
        inp).2.1 = none := by
  have h := fmapRun_submission_eq (fun c => (Except.ok (g c) : Except ε β)) r k true
    numPrepare delay inp hb
  rw [collectResults_map_ok] at h
  exact ⟨congrArg Prod.fst h, congrArg Prod.snd h⟩

/-- C5 witness: three calls whose delays strictly decrease still yield
in submission order under the default ordering mode. -/
theorem claim_C5_witness :
    (fmapRun (fun c => (Except.ok c.args : Except Unit (List (PyVal Nat))))
      (fun l => l) 1 true none false (fun i => 2 - i)
      (Inputs.single [Row.plain (PyVal.base 0), Row.plain (PyVal.base 1),
                      Row.plain (PyVal.base 2)])).1
      = [[PyVal.base 0], [PyVal.base 1], [PyVal.base 2]] := by
  have h : (fmapRun (fun c => (Except.ok c.args : Except Unit (List (PyVal Nat))))
      (fun l => l) 1 true none false (fun i => 2 - i)
      (Inputs.single [Row.plain (PyVal.base 0), Row.plain (PyVal.base 1),
                      Row.plain (PyVal.base 2)])).1
      = (batcherOut 1 (callSpecs (Inputs.single [Row.plain (PyVal.base 0),
          Row.plain (PyVal.base 1), Row.plain (PyVal.base 2)]))).map
          (fun c => (fun l => l) ((fun c => c.args) c)) :=
    (claim_C5 (fun c => c.args) (fun l => l) 1 none (fun i => 2 - i)
      (Inputs.single [Row.plain (PyVal.base 0), Row.plain (PyVal.base 1),
                      Row.plain (PyVal.base 2)])
      (trivial : boundOK (windowBound true none))).1
  rw [h]
  rfl

/-- C7: for every configuration — any ordering mode, engine setting,
window bound, batch size, and any function including failing ones —
the on_return transform is applied to every yielded element exactly
once, after batching and before the element is yielded: the output is
the r-image of the identity-transform run, and in each ordering mode
it equals the r-image of the raw pre-transform result stream, whose
elements are whole-batch results when batching is active. -/
theorem claim_C7 (f : CallSpec α → Except ε β) (r : β → γ) (k : Nat)
    (delay : Nat → Nat) (inp : Inputs α) :
    (∀ (sc engine : Bool) (numPrepare : Option Nat),
      (fmapRun f r k engine numPrepare sc delay inp).1
        = ((fmapRun f (fun b => b) k engine numPrepare sc delay inp).1).map r)
  ∧ (∀ (engine : Bool) (numPrepare : Option Nat),
      boundOK (windowBound engine numPrepare) →
      (fmapRun f r k engine numPrepare false delay inp).1
        = (collectVals ((batcherOut k (callSpecs inp)).map f)).map r)
  ∧ ((fmapRun f r k true none true delay inp).1
      = (collectVals ((sortTasks (mkTasks f delay 0
          (batcherOut k (callSpecs inp)))).map Task.res)).map r) := by
  refine ⟨?_, ?_, ?_⟩
  · intro sc engine numPrepare
    cases sc
    · exact runGo_on_return f delay (windowBound engine numPrepare) numPrepare.isSome
        Mode.submission r
        (totalCount (initState (batcherOut k (callSpecs inp)) : MState α ε β))
        (initState (batcherOut k (callSpecs inp)))
    · exact runGo_on_return f delay (windowBound engine numPrepare) numPrepare.isSome
        Mode.completion r
        (totalCount (initState (batcherOut k (callSpecs inp)) : MState α ε β))
        (initState (batcherOut k (callSpecs inp)))
  · intro engine numPrepare hb
    have h := fmapRun_submission_eq f r k engine numPrepare delay inp hb
    have h1 := congrArg Prod.fst h
    simp only at h1
    rw [h1, collectResults_fst]
  · have h := (runGo_completion_collect f delay false r
      (totalCount (initState (batcherOut k (callSpecs inp)) : MState α ε β))
      (initState (batcherOut k (callSpecs inp))) le_rfl).1
    simp only [initState, List.nil_append] at h
    have h2 : (fmapRun f r k true none true delay inp).1
        = (collectResults r ((sortTasks (mkTasks f delay 0
            (batcherOut k (callSpecs inp)))).map Task.res)).1 := h
    rw [h2, collectResults_fst]

/-- C7 witness: a completion-order run with on_return applied — the
transform touches every yielded element exactly once even when
results arrive in reverse submission order. -/
theorem claim_C7_witness :
    (fmapRun (fun c => (Except.ok c.args : Except Unit (List (PyVal Nat))))
      (fun l => PyVal.seq l) 1 true none true (fun i => 2 - i)
      (Inputs.single [Row.plain (PyVal.base 0), Row.plain (PyVal.base 1),
                      Row.plain (PyVal.base 2)])).1
      = [PyVal.seq [PyVal.base 2], PyVal.seq [PyVal.base 1],
         PyVal.seq [PyVal.base 0]] := by
  have h : (fmapRun (fun c => (Except.ok c.args : Except Unit (List (PyVal Nat))))
      (fun l => PyVal.seq l) 1 true none true (fun i => 2 - i)
      (Inputs.single [Row.plain (PyVal.base 0), Row.plain (PyVal.base 1),
                      Row.plain (PyVal.base 2)])).1
      = (collectVals ((sortTasks (mkTasks
          (fun c => (Except.ok c.args : Except Unit (List (PyVal Nat))))
          (fun i => 2 - i) 0
          (batcherOut 1 (callSpecs (Inputs.single [Row.plain (PyVal.base 0),
            Row.plain (PyVal.base 1), Row.plain (PyVal.base 2)]))))).map
          Task.res)).map (fun l => PyVal.seq l) :=
    (claim_C7 (fun c => (Except.ok c.args : Except Unit (List (PyVal Nat))))
      (fun l => PyVal.seq l) 1 (fun i => 2 - i)
      (Inputs.single [Row.plain (PyVal.base 0), Row.plain (PyVal.base 1),
                      Row.plain (PyVal.base 2)])).2.2
  rw [h]
  rfl

/-- C8: an `Arguments(*args, **kwargs)` row makes the function be
invoked with exactly the wrapper's stored positional and keyword
arguments, while a plain row from a single input sequence — including
a composite value such as a tuple — is passed as the sole positional
argument. -/
theorem claim_C8 (g : CallSpec α → β) (r : β → γ) (k : Nat) (engine : Bool)
    (numPrepare : Option Nat) (delay : Nat → Nat) (rows : List (Row α)) (hk : k ≤ 1)
    (hb : boundOK (windowBound engine numPrepare)) :
    (fmapRun (fun c => (Except.ok (g c) : Except ε β)) r k engine numPrepare false delay
        (Inputs.single rows)).1
      = rows.map (fun row => r (g (specOfRow row)))
  ∧ (∀ v : PyVal α, specOfRow (Row.plain v) = ⟨[v], []⟩)
  ∧ (∀ (as : List (PyVal α)) (kw : List (String × PyVal α)),
      specOfRow (Row.arguments as kw) = ⟨as, kw⟩) := by
  refine ⟨?_, fun v => rfl, fun as kw => rfl⟩
  have h := fmapRun_submission_eq (fun c => (Except.ok (g c) : Except ε β)) r k engine
    numPrepare delay (Inputs.single rows) hb
  rw [batcherOut, if_pos hk, collectResults_map_ok] at h
  have h1 := congrArg Prod.fst h
  simp only at h1
  rw [h1]
  simp only [callSpecs, List.map_map]
  rfl

/-- C8 witness: an Arguments wrapper supplies its stored positional
and keyword arguments verbatim, while a composite plain row arrives as
the sole positional argument. -/
theorem claim_C8_witness :
    (fmapRun (fun c => (Except.ok (c.args, c.kwargs)
        : Except Unit (List (PyVal Nat) × List (String × PyVal Nat))))
      (fun p => p) 1 false none false (fun i => i)
      (Inputs.single
        [Row.arguments [PyVal.base 1, PyVal.base 2] [("k", PyVal.base 9)],
         Row.plain (PyVal.seq [PyVal.base 7, PyVal.base 8])])).1
      = [([PyVal.base 1, PyVal.base 2], [("k", PyVal.base 9)]),
         ([PyVal.seq [PyVal.base 7, PyVal.base 8]], [])] := by
  have h : (fmapRun (fun c => (Except.ok (c.args, c.kwargs)
        : Except Unit (List (PyVal Nat) × List (String × PyVal Nat))))
      (fun p => p) 1 false none false (fun i => i)
      (Inputs.single
        [Row.arguments [PyVal.base 1, PyVal.base 2] [("k", PyVal.base 9)],
         Row.plain (PyVal.seq [PyVal.base 7, PyVal.base 8])])).1
      = ([Row.arguments [PyVal.base 1, PyVal.base 2] [("k", PyVal.base 9)],
          Row.plain (PyVal.seq [PyVal.base 7, PyVal.base 8])]).map
          (fun row => (fun p => p) ((fun c => (c.args, c.kwargs)) (specOfRow row))) :=
    (claim_C8 (fun c => (c.args, c.kwargs)) (fun p => p) 1 false none (fun i => i)
      [Row.arguments [PyVal.base 1, PyVal.base 2] [("k", PyVal.base 9)],
       Row.plain (PyVal.seq [PyVal.base 7, PyVal.base 8])] (le_refl 1)
      (le_refl 1 : boundOK (windowBound false none))).1
  rw [h]
  rfl

/-- C2: for every run in which some dispatched call raises — in either
ordering mode and under any engine/prefetch configuration — the output
yields the transformed normal results of the calls before the failing
one in the active ordering, then raises that call's captured error in
place of that element, after which the sequence is exhausted.  In
submission order (any engine, any window, prefetch set or unset) the
yielded prefix is exactly the calls preceding the failure in
submission order; in completion order (engine, prefetch unset) it is
exactly the calls that finish before the failing one.  The raised
error is always the captured exception of one dispatched call — never
retried, swallowed or altered — the event trace ends at the failing
consumption (no call is started after the failure is detected), and
with num_prepare = w the total number of dispatched calls never
exceeds the consumed count plus w, so at most w additional calls
beyond the failing one are started. -/
theorem claim_C2 (f : CallSpec α → Except ε β) (v : CallSpec α → β) (r : β → γ)
    (k : Nat) (delay : Nat → Nat) (inp : Inputs α)
    (pre post : List (CallSpec α)) (cfail : CallSpec α) (e : ε)
    (hsplit : batcherOut k (callSpecs inp) = pre ++ cfail :: post)
    (hpre : ∀ c ∈ pre, f c = Except.ok (v c))
    (hfail : f cfail = Except.error e) :
    (∀ (engine : Bool) (numPrepare : Option Nat),
      boundOK (windowBound engine numPrepare) →
      (fmapRun f r k engine numPrepare false delay inp).1 = pre.map (fun c => r (v c))
        ∧ (fmapRun f r k engine numPrepare false delay inp).2.1 = some e)
  ∧ ((fmapRun f r k true none true delay inp).1
        = (collectResults r ((sortTasks (mkTasks f delay 0
            (batcherOut k (callSpecs inp)))).map Task.res)).1
      ∧ (fmapRun f r k true none true delay inp).2.1
        = (collectResults r ((sortTasks (mkTasks f delay 0
            (batcherOut k (callSpecs inp)))).map Task.res)).2)
  ∧ (∀ (sc engine : Bool) (numPrepare : Option Nat) (e2 : ε),
      (fmapRun f r k engine numPrepare sc delay inp).2.1 = some e2 →
      (∃ evs, (fmapRun f r k engine numPrepare sc delay inp).2.2.1
          = evs ++ [Ev.completed])
        ∧ (∃ c ∈ batcherOut k (callSpecs inp), f c = Except.error e2))
  ∧ (∀ (engine : Bool) (w : Nat), 1 ≤ w →
      (fmapRun f r k engine (some w) false delay inp).2.2.2.nextIdx
        ≤ (pre.length + 1) + w)
  ∧ (∀ (mode : Mode) (w : Nat),
      (runMap f delay (some w) true mode r
        (initState (batcherOut k (callSpecs inp)))).2.2.2.nextIdx
        ≤ w + countCompleted (runMap f delay (some w) true mode r
            (initState (batcherOut k (callSpecs inp)))).2.2.1) := by
  have hwl : ∀ X : List (CallSpec α),
      (initState X : MState α ε β).window.length = 0 := fun _ => rfl
  have hni : ∀ X : List (CallSpec α),
      (initState X : MState α ε β).nextIdx = 0 := fun _ => rfl
  refine ⟨?_, ?_, ?_, ?_, ?_⟩
  · intro engine numPrepare hb
    have hpair := fmapRun_submission_eq f r k engine numPrepare delay inp hb
    rw [hsplit, collectResults_prefix_error r f v pre cfail post e hpre hfail] at hpair
    have h1 := congrArg Prod.fst hpair
    have h2 := congrArg Prod.snd hpair
    simp only at h1 h2
    exact ⟨h1, h2⟩
  · have h := runGo_completion_collect f delay false r
      (totalCount (initState (batcherOut k (callSpecs inp)) : MState α ε β))
      (initState (batcherOut k (callSpecs inp))) le_rfl
    simp only [initState, List.nil_append] at h
    exact ⟨h.1, h.2⟩
  · intro sc engine numPrepare e2 h
    cases sc
    · have hrm : fmapRun f r k engine numPrepare false delay inp
          = runGo f delay (windowBound engine numPrepare) numPrepare.isSome
              Mode.submission r
              (totalCount (initState (batcherOut k (callSpecs inp)) : MState α ε β))
              (initState (batcherOut k (callSpecs inp))) := rfl
      rw [hrm] at h ⊢
      refine ⟨runGo_error_trace f delay _ _ _ r e2 _ _ h, ?_⟩
      rcases runGo_error_from_call f delay _ _ _ r _ _ e2 h with ⟨t, ht, _⟩ | ⟨c, hc, hfc⟩
      · exact absurd (ht : t ∈ ([] : List (Task α ε β))) (List.not_mem_nil t)
      · exact ⟨c, (hc : c ∈ batcherOut k (callSpecs inp)), hfc⟩
    · have hrm : fmapRun f r k engine numPrepare true delay inp
          = runGo f delay (windowBound engine numPrepare) numPrepare.isSome
              Mode.completion r
              (totalCount (initState (batcherOut k (callSpecs inp)) : MState α ε β))
              (initState (batcherOut k (callSpecs inp))) := rfl
      rw [hrm] at h ⊢
      refine ⟨runGo_error_trace f delay _ _ _ r e2 _ _ h, ?_⟩
      rcases runGo_error_from_call f delay _ _ _ r _ _ e2 h with ⟨t, ht, _⟩ | ⟨c, hc, hfc⟩
      · exact absurd (ht : t ∈ ([] : List (Task α ε β))) (List.not_mem_nil t)
      · exact ⟨c, (hc : c ∈ batcherOut k (callSpecs inp)), hfc⟩
  · intro engine w hw
    have hpair := fmapRun_submission_eq f r k engine (some w) delay inp
      (hw : boundOK (windowBound engine (some w)))
    rw [hsplit, collectResults_prefix_error r f v pre cfail post e hpre hfail] at hpair
    have h1 := congrArg Prod.fst hpair
    have h2 := congrArg Prod.snd hpair
    simp only at h1 h2
    have hrm : fmapRun f r k engine (some w) false delay inp
        = runGo f delay (some w) true Mode.submission r
            (totalCount (initState (batcherOut k (callSpecs inp)) : MState α ε β))
            (initState (batcherOut k (callSpecs inp))) := rfl
    have hwin0 : (initState (batcherOut k (callSpecs inp)) : MState α ε β).window.length
        ≤ w := by rw [hwl]; omega
    have hcc := runGo_completed_yields f delay (some w) true Mode.submission r
      (totalCount (initState (batcherOut k (callSpecs inp)) : MState α ε β))
      (initState (batcherOut k (callSpecs inp)))
    have hdb := runGo_dispatch_bound f delay w true Mode.submission r
      (totalCount (initState (batcherOut k (callSpecs inp)) : MState α ε β))
      (initState (batcherOut k (callSpecs inp))) le_rfl hwin0
    rw [hrm] at h1 h2 ⊢
    rw [h2] at hcc
    rw [h1] at hcc
    simp only [List.length_map] at hcc
    rw [hwl, hni] at hdb
    omega
  · intro mode w
    have hwin0 : (initState (batcherOut k (callSpecs inp)) : MState α ε β).window.length
        ≤ w := by rw [hwl]; omega
    have hdbm := runGo_dispatch_bound f delay w true mode r
      (totalCount (initState (batcherOut k (callSpecs inp)) : MState α ε β))
      (initState (batcherOut k (callSpecs inp))) le_rfl hwin0
    rw [hwl, hni] at hdbm
    rw [runMap]
    omega

/-- C2 witness: two calls with window 1, the second raising: the first
transformed value is yielded, then the error surfaces and the
sequence ends. -/
theorem claim_C2_witness :
    (fmapRun (fun c => match c.args with
        | [PyVal.base 0] => (Except.ok 0 : Except Nat Nat)
        | _ => Except.error 7)
      (fun x => x + 1) 1 false (some 1) false (fun i => i)
      (Inputs.single [Row.plain (PyVal.base 0), Row.plain (PyVal.base 1)])).1 = [1]
  ∧ (fmapRun (fun c => match c.args with
        | [PyVal.base 0] => (Except.ok 0 : Except Nat Nat)
        | _ => Except.error 7)
      (fun x => x + 1) 1 false (some 1) false (fun i => i)
      (Inputs.single [Row.plain (PyVal.base 0), Row.plain (PyVal.base 1)])).2.1
      = some 7 := by
  have h := (claim_C2 (fun c => match c.args with
        | [PyVal.base 0] => (Except.ok 0 : Except Nat Nat)
        | _ => Except.error 7)
    (fun _ => 0) (fun x => x + 1) 1 (fun i => i)
    (Inputs.single [Row.plain (PyVal.base 0), Row.plain (PyVal.base 1)])
    [⟨[PyVal.base 0], []⟩] [] ⟨[PyVal.base 1], []⟩ 7 rfl
    (by intro c hc
        rw [List.mem_singleton] at hc
        subst hc
        rfl)
    rfl).1 false (some 1) (le_refl 1)
  refine ⟨?_, h.2⟩
  rw [h.1]
  rfl

/-- C3: under a configured prefetch window w, every scheduler state
reachable during a run keeps the number of dispatched-but-unconsumed
Tasks at most w; consuming a Task removes exactly one from the window
(freeing exactly one slot), and in submission order the consumed Task
is the oldest one (the head of the window). -/
theorem claim_C3 (f : CallSpec α → Except ε β) (delay : Nat → Nat) (w : Nat)
    (preload : Bool) (mode : Mode) :
    (∀ s : MState α ε β, Reached f delay (some w) preload mode s → s.window.length ≤ w)
  ∧ (∀ (l rest : List (Task α ε β)) (t : Task α ε β),
      pickTask mode l = some (t, rest) → rest.length + 1 = l.length)
  ∧ (∀ (l rest : List (Task α ε β)) (t : Task α ε β),
      pickTask Mode.submission l = some (t, rest) → l = t :: rest) := by
  refine ⟨reached_window_le f delay w preload mode,
    fun l rest t h => pickTask_length h, ?_⟩
  intro l rest t h
  match l with
  | [] => simp [pickTask] at h
  | u :: us =>
    simp only [pickTask, Option.some.injEq, Prod.mk.injEq] at h
    rw [h.1, h.2]

/-- C3 witness: the initial state of a concrete run respects the
window bound, and consuming from a two-task window frees exactly one
slot and takes the oldest task. -/
theorem claim_C3_witness :
    ((initState ([⟨[PyVal.base 0], []⟩] : List (CallSpec Nat))
        : MState Nat Unit Nat).window.length ≤ 2)
  ∧ (([] : List (Task Nat Unit Nat)).length + 1
      = [(⟨⟨[PyVal.base 0], []⟩, Except.ok 5, 0⟩ : Task Nat Unit Nat)].length) := by
  constructor
  · exact (claim_C3 (fun _ => Except.ok 5) (fun i => i) 2 true Mode.submission).1
      (initState [⟨[PyVal.base 0], []⟩]) (Reached.init _)
  · exact (claim_C3 (fun _ => Except.ok 5) (fun i => i) 2 true Mode.submission).2.1
      [⟨⟨[PyVal.base 0], []⟩, Except.ok 5, 0⟩] [] ⟨⟨[PyVal.base 0], []⟩, Except.ok 5, 0⟩
      rfl

/-- C6: with sort_by_completion = True and a concurrent engine, both
results and errors are yielded in the order the underlying calls
actually finish, not the order they were submitted: the run — for any
function, failing calls included — equals the sequential collection of
the task stream sorted by completion delay (a permutation of the
submitted tasks, nondecreasing in delay), on_return being applied to
each result before it is yielded; under any window bound,
take_next_completed always delivers an outstanding task of minimal
remaining delay; and three calls with strictly decreasing delays yield
their results in reverse input order. -/
theorem claim_C6 (f : CallSpec α → Except ε β) (r : β → γ) (k : Nat)
    (delay : Nat → Nat) (inp : Inputs α) :
    ((fmapRun f r k true none true delay inp).1
        = (collectResults r ((sortTasks (mkTasks f delay 0
            (batcherOut k (callSpecs inp)))).map Task.res)).1
      ∧ (fmapRun f r k true none true delay inp).2.1
        = (collectResults r ((sortTasks (mkTasks f delay 0
            (batcherOut k (callSpecs inp)))).map Task.res)).2)
  ∧ (sortTasks (mkTasks f delay 0 (batcherOut k (callSpecs inp)))).Pairwise
      (fun a b => a.delay ≤ b.delay)
  ∧ List.Perm (sortTasks (mkTasks f delay 0 (batcherOut k (callSpecs inp))))
      (mkTasks f delay 0 (batcherOut k (callSpecs inp)))
  ∧ (∀ (l rest : List (Task α ε β)) (t : Task α ε β),
      pickTask Mode.completion l = some (t, rest) →
      t ∈ l ∧ (∀ x ∈ l, t.delay ≤ x.delay) ∧ rest.length + 1 = l.length)
  ∧ (∀ (g : CallSpec α → β) (q : β → γ) (a0 a1 a2 : List (PyVal α))
        (kw0 kw1 kw2 : List (String × PyVal α)),
      (fmapRun (fun c => (Except.ok (g c) : Except ε β)) q 1 true none true
        (fun i => 2 - i)
        (Inputs.single [Row.arguments a0 kw0, Row.arguments a1 kw1,
                        Row.arguments a2 kw2])).1
        = [q (g ⟨a2, kw2⟩), q (g ⟨a1, kw1⟩), q (g ⟨a0, kw0⟩)]) := by
  refine ⟨?_, sortTasks_sorted _, sortTasks_perm _, ?_, ?_⟩
  · have h := runGo_completion_collect f delay false r
      (totalCount (initState (batcherOut k (callSpecs inp)) : MState α ε β))
      (initState (batcherOut k (callSpecs inp))) le_rfl
    simp only [initState, List.nil_append] at h
    exact ⟨h.1, h.2⟩
  · intro l rest t h
    match l with
    | [] => simp [pickTask] at h
    | u :: us =>
      simp only [pickTask, Option.some.injEq] at h
      have h1 := congrArg Prod.fst h
      have h2 := congrArg Prod.snd h
      simp only at h1 h2
      refine ⟨?_, ?_, ?_⟩
      · rw [← h1]
        exact extractMinDelay_fst_mem u us
      · intro x hx
        rw [← h1]
        exact extractMinDelay_min u us x hx
      · rw [← h2, extractMinDelay_length]
        simp
  · intro g q a0 a1 a2 kw0 kw1 kw2
    rfl

/-- C6 witness: three calls in completion mode with strictly
decreasing delays, the middle one raising: the latest-submitted call's
transformed value is yielded first, then the failing call's error
surfaces at its completion position and the sequence ends. -/
theorem claim_C6_witness :
    (fmapRun (fun c => match c.args with
        | [PyVal.base 1] => (Except.error 7 : Except Nat Nat)
        | _ => Except.ok 0)
      (fun x => x + 1) 1 true none true (fun i => 2 - i)
      (Inputs.single [Row.plain (PyVal.base 0), Row.plain (PyVal.base 1),
                      Row.plain (PyVal.base 2)])).1 = [1]
  ∧ (fmapRun (fun c => match c.args with
        | [PyVal.base 1] => (Except.error 7 : Except Nat Nat)
        | _ => Except.ok 0)
      (fun x => x + 1) 1 true none true (fun i => 2 - i)
      (Inputs.single [Row.plain (PyVal.base 0), Row.plain (PyVal.base 1),
                      Row.plain (PyVal.base 2)])).2.1 = some 7 := by
  have h := (claim_C6 (fun c => match c.args with
        | [PyVal.base 1] => (Except.error 7 : Except Nat Nat)
        | _ => Except.ok 0)
    (fun x => x + 1) 1 (fun i => 2 - i)
    (Inputs.single [Row.plain (PyVal.base 0), Row.plain (PyVal.base 1),
                    Row.plain (PyVal.base 2)])).1
  refine ⟨?_, ?_⟩
  · rw [h.1]
    rfl
  · rw [h.2]
    rfl

/-- C10: with no engine and num_prepare = w ≥ 1, the run's event
trace is exactly the look-ahead pattern: min(number of batches, w+1)
batches pulled from the source before the first call's body completes,
thereafter one further batch pulled only after a prior call completes,
and at every instant the source has been advanced by at most w+1
batches beyond the number of completed calls. -/
theorem claim_C10 (g : CallSpec α → β) (r : β → γ) (k : Nat) (w : Nat) (hw : 1 ≤ w)
    (delay : Nat → Nat) (inp : Inputs α) :
    (fmapRun (fun c => (Except.ok (g c) : Except ε β)) r k false (some w) false delay
        inp).2.2.1
      = expectedTrace w (batcherOut k (callSpecs inp))
  ∧ (((fmapRun (fun c => (Except.ok (g c) : Except ε β)) r k false (some w) false delay
        inp).2.2.1).takeWhile isPulledEv).length
      = min (batcherOut k (callSpecs inp)).length (w + 1)
  ∧ (∀ n, countPulled (((fmapRun (fun c => (Except.ok (g c) : Except ε β)) r k false
        (some w) false delay inp).2.2.1).take n)
      ≤ countCompleted (((fmapRun (fun c => (Except.ok (g c) : Except ε β)) r k false
          (some w) false delay inp).2.2.1).take n)
        + min (batcherOut k (callSpecs inp)).length (w + 1)) := by
  have htr : (fmapRun (fun c => (Except.ok (g c) : Except ε β)) r k false (some w) false
      delay inp).2.2.1 = expectedTrace w (batcherOut k (callSpecs inp)) :=
    runMap_trace g delay w r hw (batcherOut k (callSpecs inp))
  refine ⟨htr, ?_, ?_⟩
  · rw [htr]
    exact expectedTrace_pullsBefore w _
  · intro n
    rw [htr]
    exact expectedTrace_prefix w _ n

/-- C10 witness: four calls with window 2 pull three inputs before the
first completion, then alternate pull-after-completion, matching the
test suite's tracked schedule. -/
theorem claim_C10_witness :
    (fmapRun (fun c => (Except.ok c.args : Except Unit (List (PyVal Nat))))
      (fun l => l) 1 false (some 2) false (fun i => i)
      (Inputs.single [Row.plain (PyVal.base 0), Row.plain (PyVal.base 1),
                      Row.plain (PyVal.base 2), Row.plain (PyVal.base 3)])).2.2.1
      = [Ev.pulled ⟨[PyVal.base 0], []⟩, Ev.pulled ⟨[PyVal.base 1], []⟩,
         Ev.pulled ⟨[PyVal.base 2], []⟩, Ev.completed,
         Ev.pulled ⟨[PyVal.base 3], []⟩, Ev.completed, Ev.completed, Ev.completed] := by
  have h : (fmapRun (fun c => (Except.ok c.args : Except Unit (List (PyVal Nat))))
      (fun l => l) 1 false (some 2) false (fun i => i)
      (Inputs.single [Row.plain (PyVal.base 0), Row.plain (PyVal.base 1),
                      Row.plain (PyVal.base 2), Row.plain (PyVal.base 3)])).2.2.1
      = expectedTrace 2 (batcherOut 1 (callSpecs
          (Inputs.single [Row.plain (PyVal.base 0), Row.plain (PyVal.base 1),
                          Row.plain (PyVal.base 2), Row.plain (PyVal.base 3)]))) :=
    (claim_C10 (fun c => c.args) (fun l => l) 1 2 (by omega) (fun i => i)
      (Inputs.single [Row.plain (PyVal.base 0), Row.plain (PyVal.base 1),
                      Row.plain (PyVal.base 2), Row.plain (PyVal.base 3)])).1
  rw [h]
  rfl

/-- C9 counterexample: the claim names the concurrency keyword
`engine`, but the repository's test suite invokes the public map
operation with the keyword `executor` — a keyword absent from the
spec's written signature — so a parameter named `engine` would reject
every concurrent call the tests make. -/
theorem claim_C9_counterexample :
    ("engine" ∈ specSignatureKeywords ∧ "engine" ∉ fmapCallKeywords)
  ∧ "executor" ∈ fmapCallKeywords := by
  constructor
  · constructor
    · simp [specSignatureKeywords]
    · simp [fmapCallKeywords]
  · simp [fmapCallKeywords]

/-- C9 (amended): the public operation's optional external
concurrent-execution capability is supplied through a keyword
parameter named `executor` (not `engine`); passing it enables
concurrent execution — the window becomes unbounded when num_prepare
is unset and the whole input is dispatched eagerly — while omitting it
degrades to a one-at-a-time window. -/
theorem claim_C9_amended :
    ("executor" ∈ fmapCallKeywords ∧ "engine" ∉ fmapCallKeywords
      ∧ fmapCallKeywords
          = ["batch_size", "on_return", "executor", "num_prepare", "sort_by_completion"])
  ∧ (windowBound true none = none ∧ windowBound false none = some 1)
  ∧ (∀ (specs : List (CallSpec Nat)) (f : CallSpec Nat → Except Unit Nat)
        (delay : Nat → Nat),
      ((fill f delay (windowBound true none) false (initState specs)).1).window.length
        = specs.length) := by
  refine ⟨⟨by simp [fmapCallKeywords], by simp [fmapCallKeywords], rfl⟩, ⟨rfl, rfl⟩, ?_⟩
  intro specs f delay
  have h := (fill_none_window f delay false (initState specs)).1
  show ((fill f delay none false (initState specs)).1).window.length = specs.length
  rw [h]
  simp [initState, mkTasks_length]
